import Mathlib

/-!
Verification of the assembly-rebuild engine of `agp-tpf-utils`
(`src/tola/assembly/build_assembly.py` and `src/tola/assembly/build_utils.py`)
via a shallow embedding in Lean 4.

Interval primitives (`Fragment`, `Gap`, `Scaffold`) and `OverlapResult` live in
modules of the repository that are not part of the two source files above; where
their behaviour is needed it is modelled from the specification document, and
each such definition carries a doc comment starting `Modelled from the spec:`.
Python mutation is rendered as explicit state passing; `dict`s keyed by fragment
key-tuples are rendered as association lists whose key-uniqueness is carried as
an explicit hypothesis where a proof needs it.
-/

namespace AgpTpf

/-- Modelled from the spec: a fragment strand is one of `+`, `-`, `?`. -/
inductive Strand where
  | plus
  | minus
  | unknown
deriving DecidableEq, Repr

instance : Inhabited Strand := ⟨Strand.plus⟩

/-- Modelled from the spec: `Fragment` is a 1-based, both-ends-inclusive
interval `{seq_name, start, end, strand, tags}` on a named input sequence.
(`end` is a Lean keyword, so the field is called `stop`.) -/
structure Fragment where
  seq_name : String
  start : Int
  stop : Int
  strand : Strand
  tags : List String
deriving DecidableEq, Repr

instance : Inhabited Fragment := ⟨⟨"", 1, 1, .unknown, []⟩⟩

/-- Fragment equality key, `key_tuple := (seq_name, start, end, strand)`. -/
def Fragment.key_tuple (f : Fragment) : String × Int × Int × Strand :=
  (f.seq_name, f.start, f.stop, f.strand)

/-- Modelled from the spec: `length := end − start + 1`. -/
def Fragment.length (f : Fragment) : Int :=
  f.stop - f.start + 1

/-- Modelled from the spec: `.name` of a fragment row is the name of its
target sequence. -/
def Fragment.name (f : Fragment) : String :=
  f.seq_name

/-- Modelled from the spec: two fragments overlap when they lie on the same
sequence and their closed intervals intersect. -/
def Fragment.overlaps (f g : Fragment) : Bool :=
  f.seq_name = g.seq_name && f.start ≤ g.stop && g.start ≤ f.stop

/-- Modelled from the spec: two fragments abut when they are contiguous on the
same sequence, at opposite boundaries. -/
def Fragment.abuts (f g : Fragment) : Bool :=
  f.seq_name = g.seq_name && (f.stop + 1 = g.start || g.stop + 1 = f.start)

/-- Modelled from the spec: `Gap` is a spacer `{length, type}`. -/
structure Gap where
  length : Int
  gapType : String
deriving DecidableEq, Repr

/-- Modelled from the spec: a scaffold row is a fragment or a gap. -/
inductive Row where
  | fragment (f : Fragment)
  | gap (g : Gap)
deriving DecidableEq, Repr

instance : Inhabited Row := ⟨.gap ⟨0, ""⟩⟩

/-- Modelled from the spec: a row's length. -/
def Row.length : Row → Int
  | .fragment f => f.length
  | .gap g => g.length

/-- Modelled from the spec: `Scaffold` is a named, ordered list of rows with an
optional haplotype and tag. -/
structure Scaffold where
  name : String
  rows : List Row
  haplotype : Option String
  tag : Option String
deriving DecidableEq, Repr

/-- Modelled from the spec: a scaffold's length is the sum of its row lengths. -/
def Scaffold.length (s : Scaffold) : Int :=
  (s.rows.map Row.length).sum

/--
`FoundFragment` of `build_utils.py`: a fragment and the list of scaffolds
(`OverlapResult`s, here referenced by numeric identity) it was found in.
-/
structure FoundFragment where
  fragment : Fragment
  scaffolds : List Nat
deriving DecidableEq, Repr

/-- `FoundFragment.scaffold_count` of `build_utils.py`. -/
def FoundFragment.scaffold_count (f : FoundFragment) : Nat :=
  f.scaffolds.length

/-!
## `BuildAssembly.qc_sub_fragments` (build_assembly.py lines 154-189)

The method counts, over all index pairs `i < j` of the sub-fragment list, how
many pairs abut and how many overlap, sums the sub-fragment lengths, and raises
a `ValueError` exactly when at least one of its three messages was appended.
-/

/-- The inner `for j in range(i + 1, lgth)` loop of `qc_sub_fragments`: counts
`(abut, overlap)` pairs of `a` against each later element. -/
def pairCountsInner (a : Fragment) (rest : List Fragment) : Nat × Nat :=
  rest.foldl
    (fun (c : Nat × Nat) b =>
      ((if a.abuts b then c.1 + 1 else c.1), (if a.overlaps b then c.2 + 1 else c.2)))
    (0, 0)

/-- The nested pair loop of `qc_sub_fragments`: `(abut_count, overlap_count)`
over all pairs `i < j`. -/
def pairCounts : List Fragment → Nat × Nat
  | [] => (0, 0)
  | a :: rest =>
    let inner := pairCountsInner a rest
    let outer := pairCounts rest
    (inner.1 + outer.1, inner.2 + outer.2)

/-- `BuildAssembly.qc_sub_fragments`: returns `true` when the method raises
`ValueError` (some QC message was appended), `false` when it returns normally. -/
def qcSubFragments (fnd : FoundFragment) (sub_fragments : List Fragment) : Bool :=
  let counts := pairCounts sub_fragments
  let abut_count := counts.1
  let overlap_count := counts.2
  let lgth := sub_fragments.length
  let sub_frags_length := (sub_fragments.map Fragment.length).sum
  decide (fnd.fragment.length ≠ sub_frags_length)
    || decide (overlap_count ≠ 0)
    || decide ((abut_count : Int) ≠ (lgth : Int) - 1)

/-- Spec-side count, for comparison with the loop in `qc_sub_fragments`: the
number of unordered index pairs `{i, j}` of the sub-fragment list that abut. -/
def specAbutPairCount (subs : List Fragment) : Nat :=
  ((Finset.range subs.length ×ˢ Finset.range subs.length).filter
    (fun p => p.1 < p.2 ∧ (subs.getD p.1 default).abuts (subs.getD p.2 default))).card

/-- Spec-side count: the number of unordered index pairs of the sub-fragment
list that overlap. -/
def specOverlapPairCount (subs : List Fragment) : Nat :=
  ((Finset.range subs.length ×ˢ Finset.range subs.length).filter
    (fun p => p.1 < p.2 ∧ (subs.getD p.1 default).overlaps (subs.getD p.2 default))).card

/-!
## `ChrNamer` (build_utils.py lines 14-130)
-/

/-- `ChrNamer` state. `haplotype_set` (a Python `set`) is a duplicate-free
list; only membership is observed. -/
structure ChrNamer where
  autosome_prefix : String
  chr_name_n : Nat
  current_chr_name : Option String
  current_haplotype : Option String
  haplotig_n : Nat
  haplotig_scaffolds : List Scaffold
  unloc_n : Nat
  unloc_scaffolds : List Scaffold
  haplotype_set : List String
deriving DecidableEq, Repr

/-- A fresh `ChrNamer()` with the default autosome prefix. -/
def ChrNamer.init : ChrNamer :=
  ⟨"RL_", 0, none, none, 0, [], 0, [], []⟩

/-- The two `ValueError`s `make_chr_name` can raise. -/
inductive ChrErr where
  | inconsistentChrName
  | inconsistentHaplotype
deriving DecidableEq, Repr

/-- The chromosome-name regex test of `make_chr_name` (an upper-case letter
followed by zero or more decimal digits, anchored at both ends), for ASCII
tags. (Written with `Char.isUpper`/`Char.isDigit`, which test the ASCII
ranges.) -/
def isChrTag (t : String) : Bool :=
  match t.data with
  | [] => false
  | c :: rest => c.isUpper && rest.all (·.isDigit)

/-- The fixed tags `("Contaminant", "Cut", "Haplotig", "Unloc")` that are
neither chromosome names nor haplotype candidates. -/
def reservedTags : List String :=
  ["Contaminant", "Cut", "Haplotig", "Unloc"]

/-- A haplotype-candidate tag: not `"Painted"`, not a chromosome-name tag, and
not one of the reserved tags (the `elif` chain of `make_chr_name`). -/
def isHapCandidate (t : String) : Bool :=
  t ≠ "Painted" && !isChrTag t && decide (t ∉ reservedTags)

/-- Modelled from the spec: `Scaffold.fragment_tags()` returns the union of the
tag sets of the scaffold's fragments. A Python `set` iterates in an unspecified
order; the union is realised as the deduplicated concatenation. -/
def Scaffold.fragment_tags (s : Scaffold) : List String :=
  ((s.rows.filterMap fun r =>
      match r with
      | .fragment f => some f.tags
      | .gap _ => none).flatten).dedup

/-- The tag-scanning loop of `make_chr_name` (build_utils.py lines 35-62),
threading the `chr_name`, `haplotype` and `is_painted` locals and raising on
the second distinct chromosome name or on a second haplotype candidate. -/
def scanTags : List String → Option String → Option String → Bool →
    Except ChrErr (Option String × Option String × Bool)
  | [], cn, hp, ip => .ok (cn, hp, ip)
  | t :: ts, cn, hp, ip =>
    if t = "Painted" then
      scanTags ts cn hp true
    else if isChrTag t then
      match cn with
      | some c => if t ≠ c then .error .inconsistentChrName else scanTags ts (some c) hp ip
      | none => scanTags ts (some t) hp ip
    else if t ∈ reservedTags then
      scanTags ts cn hp ip
    else
      match hp with
      | some _ => .error .inconsistentHaplotype
      | none => scanTags ts cn (some t) ip

/-- Spec-side predicate: the tag list, read against an already-seen chromosome
name `cn`, contains a chromosome-name tag conflicting with `cn` or with another
chromosome-name tag in the list. -/
def chrConflict (cn : Option String) (ts : List String) : Prop :=
  ∃ t ∈ ts, isChrTag t ∧ ((∃ c, cn = some c ∧ t ≠ c) ∨ ∃ u ∈ ts, isChrTag u ∧ t ≠ u)

/-- Spec-side predicate: the tag list, read against an already-seen haplotype
`hp`, contains a haplotype candidate beyond the single one expected. -/
def hapConflict (hp : Option String) (ts : List String) : Prop :=
  ∃ t ∈ ts, isHapCandidate t ∧ (hp ≠ none ∨ ∃ u ∈ ts, isHapCandidate u ∧ t ≠ u)

/-- `ChrNamer.autosome_name`: increments `chr_name_n` and returns
`autosome_prefix + str(chr_name_n)`. -/
def ChrNamer.autosomeName (nm : ChrNamer) : String × ChrNamer :=
  let n := nm.chr_name_n + 1
  (nm.autosome_prefix ++ toString n, { nm with chr_name_n := n })

/-- `scaffold.rows[0].name`: the target-sequence name of the first row, which
is a fragment in every well-formed scaffold (ill-formed scaffolds, where Python
would raise, give `""`). -/
def firstRowName (s : Scaffold) : String :=
  match s.rows.head? with
  | some (.fragment f) => f.name
  | _ => ""

/-- The test `re.match(r"([^_]+)_", chr_name)` of `make_chr_name`: `some p`
when the name starts with a non-empty underscore-free prefix `p` followed by
`'_'`, and `none` otherwise. -/
def prefixBeforeUnderscore (s : String) : Option String :=
  let pre := s.data.takeWhile (· ≠ '_')
  if pre.isEmpty then none
  else if (s.data.drop pre.length).head? = some '_' then some (String.mk pre)
  else none

/-- `set.add`: appends unless already a member. -/
def insertSet (x : String) (l : List String) : List String :=
  if x ∈ l then l else l ++ [x]

/-- `ChrNamer.make_chr_name` (build_utils.py lines 30-86). Returns the raised
error (if any) together with the `ChrNamer` state after the call; the state is
returned unchanged on the error paths, mirroring that the Python method
performs no attribute mutation before its `raise` statements. -/
def ChrNamer.makeChrName (nm : ChrNamer) (s : Scaffold) : Option ChrErr × ChrNamer :=
  match scanTags s.fragment_tags none none false with
  | .error e => (some e, nm)
  | .ok (cn, hp, ip) =>
    let (cn', hp', nm₁) :=
      match cn with
      | some c => (c, hp, nm)
      | none =>
        if ip then
          let (an, nm') := nm.autosomeName
          (an, hp, nm')
        else
          let c := firstRowName s
          let hp' :=
            match prefixBeforeUnderscore c with
            | some pre => if pre ∈ nm.haplotype_set then some pre else hp
            | none => hp
          (c, hp', nm)
    (none,
      { nm₁ with
        current_chr_name := some cn'
        current_haplotype := hp'
        haplotype_set :=
          match hp' with
          | some h => insertSet h nm₁.haplotype_set
          | none => nm₁.haplotype_set
        unloc_n := 0
        unloc_scaffolds := [] })


/-!
## `ChrNamer.rename_by_size` (build_utils.py lines 124-130)

`rename_by_size` captures the scaffolds' names in list order, sorts the
scaffold objects by length descending (`sorted` is stable), and reassigns the
captured names along the sorted order. Object identity across the mutation is
tracked here by pairing each scaffold with its original list position.
-/

/-- The sort order of `rename_by_size`: `sorted(key=lambda s: s.length,
reverse=True)`, i.e. length descending; `List.insertionSort` is stable, like
Python's `sorted`. -/
def bySizeOrder (l : List Scaffold) : List (Nat × Scaffold) :=
  List.insertionSort (fun a b => b.2.length ≤ a.2.length) l.enum

/-- The assignments performed by `for s, n in zip(by_size, names): s.name = n`:
original position of each scaffold in the bucket, paired with the scaffold
carrying its newly assigned name. -/
def renamedPairs (l : List Scaffold) : List (Nat × Scaffold) :=
  ((bySizeOrder l).zip (l.map (·.name))).map
    (fun q => (q.1.1, { q.1.2 with name := q.2 }))

/-- The bucket list after `rename_by_size`: each position holds the scaffold
it held before, bearing its reassigned name. -/
def renameBySize (l : List Scaffold) : List Scaffold :=
  if l.isEmpty then l
  else
    (List.range l.length).map
      (fun i => (((renamedPairs l).find? (fun q => q.1 = i)).map Prod.snd).getD
        ⟨"", [], none, none⟩)

/-!
## `BuildAssembly.add_missing_scaffolds_from_input` (build_assembly.py lines 221-245)

The per-input-scaffold body of the method: walk `(i, frag)` over the
scaffold's fragment rows; a fragment whose `key_tuple` is absent from
`found_fragments` is appended to a lazily created new scaffold named after the
input scaffold. When the previously appended fragment's row index is not `i-1`,
a gap row is inserted first: the row at `i-1` itself when it is a gap, else
`default_gap`.
-/

/-- Modelled from the spec: `Scaffold.idx_fragments()` yields `(row index,
fragment)` for each fragment row, walking rows in order. -/
def Scaffold.idxFragments (s : Scaffold) : List (Nat × Fragment) :=
  s.rows.enum.filterMap fun p =>
    match p.2 with
    | .fragment f => some (p.1, f)
    | .gap _ => none

/-- Modelled from the spec: `Scaffold.add_row` appends a row. -/
def Scaffold.addRow (s : Scaffold) (r : Row) : Scaffold :=
  { s with rows := s.rows ++ [r] }

/-- One step of the fragment loop of `add_missing_scaffolds_from_input`,
threading `(new_scffld, last_added_i)`. The Python guard
`not last_added_i == i - 1` is rendered as `¬(li + 1 = i)`, equivalent for the
reachable `i ≥ 1` (indices yielded after a previous one are ≥ 1). -/
def addMissingStep (foundKeys : List (String × Int × Int × Strand))
    (default_gap : Gap) (name : String) (rows : List Row)
    (acc : Option Scaffold × Option Nat) (p : Nat × Fragment) :
    Option Scaffold × Option Nat :=
  if p.2.key_tuple ∈ foundKeys then acc
  else
    let ns0 := acc.1.getD ⟨name, [], none, none⟩
    let ns1 :=
      match acc.2 with
      | some li =>
        if li + 1 = p.1 then ns0
        else
          match rows.getD (p.1 - 1) default with
          | .gap g => ns0.addRow (.gap g)
          | _ => ns0.addRow (.gap default_gap)
      | none => ns0
    (some (ns1.addRow (.fragment p.2)), some p.1)

/-- The per-input-scaffold body of `add_missing_scaffolds_from_input`: the new
scaffold built from the fragments missing from `found_fragments`, or `none`
when every fragment was found. -/
def addMissingScaffold (foundKeys : List (String × Int × Int × Strand))
    (default_gap : Gap) (scffld : Scaffold) : Option Scaffold :=
  (scffld.idxFragments.foldl
    (addMissingStep foundKeys default_gap scffld.name scffld.rows) (none, none)).1

/-- Spec-side separator (for comparison with `addMissingStep`): the rows
inserted between two consecutively kept fragments at indices `li < i`. Nothing
when the indices are consecutive; otherwise one gap row — the original row at
`i-1` when it is a gap, else `default_gap`. -/
def specGapBetween (rows : List Row) (default_gap : Gap) (li i : Nat) : List Row :=
  if li + 1 = i then []
  else
    match rows.getD (i - 1) default with
    | .gap g => [.gap g]
    | _ => [.gap default_gap]

/-- Spec-side row construction: rows of the emitted scaffold after an initial
kept fragment at index `li`, given the remaining kept `(index, fragment)`
pairs. -/
def specKeptRows (rows : List Row) (default_gap : Gap) :
    Nat → List (Nat × Fragment) → List Row
  | _, [] => []
  | li, (i, f) :: rest =>
    specGapBetween rows default_gap li i
      ++ .fragment f :: specKeptRows rows default_gap i rest

/-- Spec-side description of the per-scaffold emission: keep the fragments
whose key is missing, in order; emit nothing when there are none, else a
scaffold named after the input carrying the kept fragments separated by
`specGapBetween` rows. -/
def addMissingScaffoldSpec (foundKeys : List (String × Int × Int × Strand))
    (default_gap : Gap) (scffld : Scaffold) : Option Scaffold :=
  match scffld.idxFragments.filter (fun p => p.2.key_tuple ∉ foundKeys) with
  | [] => none
  | (i, f) :: rest =>
    some ⟨scffld.name,
      .fragment f :: specKeptRows scffld.rows default_gap i rest, none, none⟩

/-- Well-formed scaffold row lists: first and last rows are fragments and no
two consecutive rows are gaps. -/
inductive WFRows : List Row → Prop where
  | single (f : Fragment) : WFRows [.fragment f]
  | fragCons (f : Fragment) (rs : List Row) : WFRows rs → WFRows (.fragment f :: rs)
  | fragGapCons (f : Fragment) (g : Gap) (rs : List Row) :
      WFRows rs → WFRows (.fragment f :: .gap g :: rs)

/-- `idx_fragments` over a row suffix starting at absolute row index `k`. -/
def idxFragmentsFrom (k : Nat) (rs : List Row) : List (Nat × Fragment) :=
  (List.enumFrom k rs).filterMap fun p =>
    match p.2 with
    | .fragment f => some (p.1, f)
    | .gap _ => none

/-!
## `OverhangPremise`, `OverhangResolver` (build_utils.py lines 156-294) and
## `BuildAssembly.discard_overhanging_fragments` (build_assembly.py lines 99-119)

`OverlapResult` lives in `overlap_result.py`, outside `src/`. Here an
`ORState` records an OverlapResult's rows together with its derived overhang
quantities, modelled from the spec as functions of the current rows (each
OverlapResult's bait, fixed at construction, is captured inside those
functions). Scaffold objects are mutable and shared, so the build state keeps
them in a store keyed by numeric identity, and `FoundFragment.scaffolds` holds
those keys.
-/

/-- Row-level test for a gap. -/
def isGapRow : Row → Bool
  | .gap _ => true
  | .fragment _ => false

/-- Modelled from the spec: the state of one `OverlapResult` as read by the
overhang resolver. `start_row_bait_overlap`, `end_row_bait_overlap`,
`start_overhang`, `end_overhang`, `overhang_if_start_removed` and
`overhang_if_end_removed` are computed by `overlap_result.py` (not under
`src/`) from the current rows and the fixed bait; they are carried as
functions of the rows. -/
structure ORState where
  rows : List Row
  startRowBaitOverlap : List Row → Int
  endRowBaitOverlap : List Row → Int
  startOverhang : List Row → Int
  endOverhang : List Row → Int
  overhangIfStartRemoved : List Row → Int
  overhangIfEndRemoved : List Row → Int

/-- An `ORState` whose rows are empty; stands for a dangling scaffold
reference (never consulted in reachable states). -/
def defaultOR : ORState :=
  ⟨[], fun _ => 0, fun _ => 0, fun _ => 0, fun _ => 0, fun _ => 0, fun _ => 0⟩

/-- Modelled from the spec: `OverlapResult.discard_start` removes the fragment
at the start; a gap left leading is dropped with it (scaffold rows neither
start nor end with a gap). -/
def ORState.discardStart (s : ORState) : ORState :=
  { s with rows := (s.rows.drop 1).dropWhile isGapRow }

/-- Modelled from the spec: `OverlapResult.discard_end`, symmetric to
`discard_start`. -/
def ORState.discardEnd (s : ORState) : ORState :=
  { s with rows := ((s.rows.dropLast).reverse.dropWhile isGapRow).reverse }

/-- The mutable scaffold store: each `OverlapResult` under a numeric
identity. -/
abbrev Store := List (Nat × ORState)

/-- Dereference a scaffold identity. -/
def getOR (store : Store) (sid : Nat) : ORState :=
  ((store.find? (fun e => e.1 = sid)).map Prod.snd).getD defaultOR

/-- In-place mutation of the scaffold under `sid`. -/
def updateOR (store : Store) (sid : Nat) (f : ORState → ORState) : Store :=
  store.map fun e => if e.1 = sid then (e.1, f e.2) else e

/-- Which end a premise would remove: `StartOverhangPremise` or
`EndOverhangPremise`. -/
inductive Side where
  | start
  | stop
deriving DecidableEq, Repr

/-- An `OverhangPremise`: the fragment, the scaffold it would be removed from,
and the end it sits at. -/
structure Premise where
  fragment : Fragment
  sid : Nat
  side : Side
deriving DecidableEq, Repr

/-- `OverhangPremise.bait_overlap`: `start_row_bait_overlap` or
`end_row_bait_overlap` of the premise's scaffold. -/
def baitOverlap (store : Store) (p : Premise) : Int :=
  let s := getOR store p.sid
  match p.side with
  | .start => s.startRowBaitOverlap s.rows
  | .stop => s.endRowBaitOverlap s.rows

/-- `OverhangPremise.overhang_if_applied`. -/
def overhangIfApplied (store : Store) (p : Premise) : Int :=
  let s := getOR store p.sid
  match p.side with
  | .start => s.overhangIfStartRemoved s.rows
  | .stop => s.overhangIfEndRemoved s.rows

/-- `OverhangPremise.overhang_error_delta_if_applied`:
`abs(overhang_if_X_removed()) - abs(X_overhang)`. -/
def overhangErrorDelta (store : Store) (p : Premise) : Int :=
  let s := getOR store p.sid
  match p.side with
  | .start => |s.overhangIfStartRemoved s.rows| - |s.startOverhang s.rows|
  | .stop => |s.overhangIfEndRemoved s.rows| - |s.endOverhang s.rows|

/-- `OverhangPremise.improves` (build_utils.py lines 178-188). -/
def improvesB (store : Store) (err : Int) (p : Premise) : Bool :=
  if (getOR store p.sid).rows.length = 1 then false
  else if overhangErrorDelta store p < 0 ∧ overhangIfApplied store p > -3 * err then
    true
  else false

/-- `OverhangPremise.makes_worse`: `not improves`. -/
def makesWorseB (store : Store) (err : Int) (p : Premise) : Bool :=
  !improvesB store err p

/-- `OverhangPremise.apply`: `discard_start()` or `discard_end()` on the
premise's scaffold. -/
def applyPremise (store : Store) (p : Premise) : Store :=
  updateOR store p.sid
    (match p.side with
     | .start => ORState.discardStart
     | .stop => ORState.discardEnd)

/-- The premise chosen by `OverhangResolver.add_overhang_premise` (build_utils
lines 244-250): a start premise when the fragment is the first row, an end
premise when it is the last row, nothing otherwise. (`rows[0] is fragment`
compares identity; fragments are compared here by value.) -/
def premiseFor (store : Store) (frag : Fragment) (sid : Nat) : Option Premise :=
  let rows := (getOR store sid).rows
  if rows.head? = some (.fragment frag) then some ⟨frag, sid, .start⟩
  else if rows.getLast? = some (.fragment frag) then some ⟨frag, sid, .stop⟩
  else none

/-- `premises_by_fragment_key`: an insertion-ordered dict from fragment key to
its premise list. -/
abbrev PremMap := List ((String × Int × Int × Strand) × List Premise)

/-- `self.premises_by_fragment_key.setdefault(fk, []).append(premise)`. -/
def appendPremise (pbk : PremMap) (k : String × Int × Int × Strand)
    (p : Premise) : PremMap :=
  match pbk with
  | [] => [(k, [p])]
  | (k', ps) :: rest =>
    if k' = k then (k', ps ++ [p]) :: rest
    else (k', ps) :: appendPremise rest k p

/-- `OverhangResolver.add_overhang_premise` (build_utils.py lines 244-253). -/
def addOverhangPremise (store : Store) (pbk : PremMap) (frag : Fragment)
    (sid : Nat) : PremMap :=
  match premiseFor store frag sid with
  | some p => appendPremise pbk frag.key_tuple p
  | none => pbk

/-- `fragments_found_more_than_once`: an insertion-ordered dict from fragment
key to its `FoundFragment`. -/
abbrev Multi := List ((String × Int × Int × Strand) × FoundFragment)

/-- The resolver-construction loop of `discard_overhanging_fragments`
(build_assembly.py lines 103-106): one `add_overhang_premise` per
`(fnd.fragment, scffld)` of `multi`. -/
def buildPremises (store : Store) (multi : Multi) : PremMap :=
  multi.foldl
    (fun pbk e =>
      e.2.scaffolds.foldl
        (fun pbk2 sid => addOverhangPremise store pbk2 e.2.fragment sid) pbk)
    []

/-- The `prem_count > 1` fallthrough of `OverhangResolver.make_fixes`
(build_utils.py lines 281-292): sort by `overhang_error_delta_if_applied`
ascending (Python's `sorted` is stable, as is `List.insertionSort`), apply the
best premise when it improves and the next makes worse. -/
def processLong (err : Int) (store : Store) (pl : List Premise) :
    List Premise × Store :=
  if pl.length > 1 then
    match List.insertionSort
        (fun a b => overhangErrorDelta store a ≤ overhangErrorDelta store b) pl with
    | bst :: nxt :: _ =>
      if improvesB store err bst ∧ makesWorseB store err nxt then
        ([bst], applyPremise store bst)
      else ([], store)
    | _ => ([], store)
  else ([], store)

/-- The per-premise-list body of `OverhangResolver.make_fixes` (build_utils.py
lines 259-292): the two-premise small-bait-overlap rule, else the
`prem_count > 1` fallthrough. -/
def processPremList (err : Int) (store : Store) (pl : List Premise) :
    List Premise × Store :=
  match pl with
  | [frst, scnd] =>
    if baitOverlap store frst < err ∧ baitOverlap store scnd < err then
      if baitOverlap store frst < baitOverlap store scnd then
        ([frst], applyPremise store frst)
      else ([scnd], applyPremise store scnd)
    else processLong err store [frst, scnd]
  | _ => processLong err store pl

/-- `OverhangResolver.make_fixes`: process each premise list in insertion
order, accumulating the applied premises and threading the scaffold store
(premises read their scaffolds lazily, so earlier applications are visible to
later lists). -/
def makeFixes (err : Int) (store : Store) :
    List ((String × Int × Int × Strand) × List Premise) → List Premise × Store
  | [] => ([], store)
  | (_, pl) :: rest =>
    ((processPremList err store pl).1
        ++ (makeFixes err (processPremList err store pl).2 rest).1,
      (makeFixes err (processPremList err store pl).2 rest).2)

/-- The working state of `discard_overhanging_fragments`: the scaffold store
and `fragments_found_more_than_once`. -/
structure BState where
  store : Store
  multi : Multi

/-- `Σ scaffold_count` over the entries of `multi`. -/
def sumScaffoldCount (multi : Multi) : Nat :=
  (multi.map (fun e => e.2.scaffolds.length)).sum

/-- The per-applied-premise cleanup of `discard_overhanging_fragments`
(build_assembly.py lines 109-117): look the premise's fragment key up in
`multi`, remove the fixed scaffold from its entry (`list.remove`: first
occurrence), and delete the entry when its scaffold count drops to ≤ 1. -/
def removeFixedScaffold (p : Premise) : Multi → Multi
  | [] => []
  | (k, fnd) :: rest =>
    if k = p.fragment.key_tuple then
      if (fnd.scaffolds.erase p.sid).length ≤ 1 then rest
      else (k, ⟨fnd.fragment, fnd.scaffolds.erase p.sid⟩) :: rest
    else (k, fnd) :: removeFixedScaffold p rest

/-- One iteration of the `while multi:` loop body: build a fresh resolver from
`multi`, run `make_fixes`, and apply the cleanup for each premise returned.
Also returns the number of fixes made. -/
def discardRound (err : Int) (st : BState) : BState × Nat :=
  (⟨(makeFixes err st.store (buildPremises st.store st.multi)).2,
      (makeFixes err st.store (buildPremises st.store st.multi)).1.foldl
        (fun m p => removeFixedScaffold p m) st.multi⟩,
    (makeFixes err st.store (buildPremises st.store st.multi)).1.length)

/-- The `while multi:` loop of `discard_overhanging_fragments`, with explicit
fuel; returns the final state and the number of loop-body iterations
executed. A round with no fixes breaks out of the loop. -/
def discardLoop (err : Int) : Nat → BState → BState × Nat
  | 0, st => (st, 0)
  | fuel + 1, st =>
    if st.multi = [] then (st, 0)
    else if (discardRound err st).2 = 0 then ((discardRound err st).1, 1)
    else ((discardLoop err fuel (discardRound err st).1).1,
        (discardLoop err fuel (discardRound err st).1).2 + 1)

/-- `BuildAssembly.discard_overhanging_fragments` (build_assembly.py lines
99-119), run with fuel `Σ scaffold_count + 1`, which the termination theorem
shows is never exhausted. -/
def discardOverhangingFragments (err : Int) (st : BState) : BState × Nat :=
  discardLoop err (sumScaffoldCount st.multi + 1) st

/-!
## Concrete instances used by witness theorems
-/

/-- A fragment shared between two `OverlapResult`s, sitting at a terminal row
of each. -/
def wf : Fragment := ⟨"w", 1, 100, .plus, []⟩

def wa : Fragment := ⟨"w", 101, 200, .plus, []⟩

def wb : Fragment := ⟨"v", 1, 50, .plus, []⟩

def wg : Gap := ⟨10, "scaffold"⟩

/-- An `OverlapResult` with `wf` at its first row; its start-row bait overlap
is 5. -/
def or1 : ORState :=
  ⟨[.fragment wf, .gap wg, .fragment wa],
    fun _ => 5, fun _ => 0, fun _ => 0, fun _ => 0, fun _ => 0, fun _ => 0⟩

/-- An `OverlapResult` with `wf` at its last row; its end-row bait overlap
is 7. -/
def or2 : ORState :=
  ⟨[.fragment wb, .gap wg, .fragment wf],
    fun _ => 0, fun _ => 7, fun _ => 0, fun _ => 0, fun _ => 0, fun _ => 0⟩

/-- An `OverlapResult` holding `wa` only at an interior row. -/
def or3 : ORState :=
  ⟨[.fragment wb, .fragment wa, .fragment wf],
    fun _ => 0, fun _ => 0, fun _ => 0, fun _ => 0, fun _ => 0, fun _ => 0⟩

def wStore : Store := [(1, or1), (2, or2), (3, or3)]

/-- `fragments_found_more_than_once` holding `wf`, found in scaffolds 1
and 2. -/
def wMulti : Multi := [(wf.key_tuple, ⟨wf, [1, 2]⟩)]

def wSt : BState := ⟨wStore, wMulti⟩


/-- Two fragments used by the C5 concrete instances. -/
def missF0 : Fragment := ⟨"m", 1, 10, .plus, []⟩

def missF1 : Fragment := ⟨"m", 21, 30, .plus, []⟩

/-- The gap row standing between `missF0` and `missF1` in the input. -/
def origGap : Gap := ⟨10, "scaffold"⟩

/-- A default gap distinct from `origGap`. -/
def defaultGapX : Gap := ⟨200, "scaffold"⟩

/-- An input scaffold `fragment, gap, fragment` used to exercise the
gap-insertion rule of `add_missing_scaffolds_from_input`. -/
def gapKeepScaffold : Scaffold :=
  ⟨"s", [.fragment missF0, .gap origGap, .fragment missF1], none, none⟩


/-- The haplotig bucket of the spec's global-rename scenario: `H_1` (length
100), `H_2` (length 500), `H_3` (length 200) in insertion order. -/
def haplotigBucket : List Scaffold :=
  [⟨"H_1", [.fragment ⟨"c1", 1, 100, .plus, []⟩], none, none⟩,
   ⟨"H_2", [.fragment ⟨"c2", 1, 500, .plus, []⟩], none, none⟩,
   ⟨"H_3", [.fragment ⟨"c3", 1, 200, .plus, []⟩], none, none⟩]


/-- A scaffold carrying two distinct chromosome-name tags. -/
def chrClashScaffold : Scaffold :=
  ⟨"s1", [.fragment ⟨"ctg1", 1, 100, .plus, ["A1", "B2"]⟩], none, none⟩

/-- A scaffold with no chromosome-name tag and no `"Painted"` tag, whose first
row is named `"A_contig_7"`. -/
def unpaintedScaffold : Scaffold :=
  ⟨"s2", [.fragment ⟨"A_contig_7", 1, 50, .plus, []⟩], none, none⟩

/-- A `ChrNamer` that has already seen haplotype `"A"`. -/
def namerWithHapA : ChrNamer :=
  ⟨"RL_", 3, some "RL_3", none, 0, [], 0, [], ["A"]⟩

/-- A scaffold carrying two distinct haplotype-candidate tags. -/
def hapClashScaffold : Scaffold :=
  ⟨"s3", [.fragment ⟨"ctg2", 1, 100, .plus, ["HapX", "HapY"]⟩], none, none⟩


/-!
## Proofs
-/


lemma card_filter_product_eq_sum (n : Nat) (P : Nat × Nat → Prop) [DecidablePred P] :
    ((Finset.range n ×ˢ Finset.range n).filter P).card
      = ∑ i ∈ Finset.range n, ∑ j ∈ Finset.range n, if P (i, j) then 1 else 0 := by
  rw [Finset.card_filter, Finset.sum_product]

lemma countP_eq_sum_range (p : Fragment → Bool) (l : List Fragment) :
    (l.countP p : Nat) = ∑ j ∈ Finset.range l.length, if p (l.getD j default) then 1 else 0 := by
  induction l with
  | nil => simp
  | cons b rest ih =>
    rw [List.countP_cons, List.length_cons, Finset.sum_range_succ']
    simp only [List.getD_cons_succ, List.getD_cons_zero]
    rw [← ih]

lemma pairCountsInner_eq (a : Fragment) (rest : List Fragment) :
    pairCountsInner a rest
      = (rest.countP (fun b => a.abuts b), rest.countP (fun b => a.overlaps b)) := by
  have H : ∀ (c : Nat × Nat),
      rest.foldl
        (fun (c : Nat × Nat) b =>
          ((if a.abuts b then c.1 + 1 else c.1), (if a.overlaps b then c.2 + 1 else c.2)))
        c
      = (c.1 + rest.countP (fun b => a.abuts b), c.2 + rest.countP (fun b => a.overlaps b)) := by
    induction rest with
    | nil => intro c; simp
    | cons b r ih =>
      intro c
      rw [List.foldl_cons, ih, List.countP_cons, List.countP_cons]
      by_cases h1 : a.abuts b <;> by_cases h2 : a.overlaps b <;>
        simp [h1, h2] <;> omega
  rw [pairCountsInner, H]
  simp

lemma specAbutPairCount_cons (a : Fragment) (rest : List Fragment) :
    specAbutPairCount (a :: rest)
      = rest.countP (fun b => a.abuts b) + specAbutPairCount rest := by
  unfold specAbutPairCount
  rw [card_filter_product_eq_sum, card_filter_product_eq_sum]
  rw [List.length_cons, Finset.sum_range_succ']
  have h0 : (∑ j ∈ Finset.range (rest.length + 1),
      if 0 < j ∧ ((a :: rest).getD 0 default).abuts ((a :: rest).getD j default) then 1 else 0)
      = rest.countP (fun b => a.abuts b) := by
    rw [Finset.sum_range_succ']
    simp only [List.getD_cons_succ, List.getD_cons_zero, Nat.succ_pos, true_and, lt_irrefl,
      false_and, if_false, Nat.add_zero]
    rw [countP_eq_sum_range]
  have hs : (∑ i ∈ Finset.range rest.length, ∑ j ∈ Finset.range (rest.length + 1),
      if i + 1 < j ∧ ((a :: rest).getD (i + 1) default).abuts ((a :: rest).getD j default) then 1 else 0)
      = ∑ i ∈ Finset.range rest.length, ∑ j ∈ Finset.range rest.length,
          if i < j ∧ (rest.getD i default).abuts (rest.getD j default) then 1 else 0 := by
    refine Finset.sum_congr rfl (fun i _ => ?_)
    rw [Finset.sum_range_succ']
    simp [List.getD_cons_succ]
  rw [h0, hs, Nat.add_comm]

lemma specOverlapPairCount_cons (a : Fragment) (rest : List Fragment) :
    specOverlapPairCount (a :: rest)
      = rest.countP (fun b => a.overlaps b) + specOverlapPairCount rest := by
  unfold specOverlapPairCount
  rw [card_filter_product_eq_sum, card_filter_product_eq_sum]
  rw [List.length_cons, Finset.sum_range_succ']
  have h0 : (∑ j ∈ Finset.range (rest.length + 1),
      if 0 < j ∧ ((a :: rest).getD 0 default).overlaps ((a :: rest).getD j default) then 1 else 0)
      = rest.countP (fun b => a.overlaps b) := by
    rw [Finset.sum_range_succ']
    simp only [List.getD_cons_succ, List.getD_cons_zero, Nat.succ_pos, true_and, lt_irrefl,
      false_and, if_false, Nat.add_zero]
    rw [countP_eq_sum_range]
  have hs : (∑ i ∈ Finset.range rest.length, ∑ j ∈ Finset.range (rest.length + 1),
      if i + 1 < j ∧ ((a :: rest).getD (i + 1) default).overlaps ((a :: rest).getD j default) then 1 else 0)
      = ∑ i ∈ Finset.range rest.length, ∑ j ∈ Finset.range rest.length,
          if i < j ∧ (rest.getD i default).overlaps (rest.getD j default) then 1 else 0 := by
    refine Finset.sum_congr rfl (fun i _ => ?_)
    rw [Finset.sum_range_succ']
    simp [List.getD_cons_succ]
  rw [h0, hs, Nat.add_comm]

lemma pairCounts_eq (subs : List Fragment) :
    pairCounts subs = (specAbutPairCount subs, specOverlapPairCount subs) := by
  induction subs with
  | nil =>
    simp [pairCounts, specAbutPairCount, specOverlapPairCount]
  | cons a rest ih =>
    rw [pairCounts, ih, pairCountsInner_eq, specAbutPairCount_cons, specOverlapPairCount_cons]

lemma specOverlapPairCount_ne_zero_iff (subs : List Fragment) :
    specOverlapPairCount subs ≠ 0 ↔
      ∃ i j, i < j ∧ j < subs.length ∧ (subs.getD i default).overlaps (subs.getD j default) := by
  unfold specOverlapPairCount
  rw [← Nat.pos_iff_ne_zero, Finset.card_pos, Finset.filter_nonempty_iff]
  constructor
  · rintro ⟨⟨i, j⟩, hmem, hij, hov⟩
    rw [Finset.mem_product, Finset.mem_range, Finset.mem_range] at hmem
    exact ⟨i, j, hij, hmem.2, hov⟩
  · rintro ⟨i, j, hij, hj, hov⟩
    refine ⟨(i, j), ?_, hij, hov⟩
    rw [Finset.mem_product, Finset.mem_range, Finset.mem_range]
    exact ⟨lt_trans hij hj, hj⟩

/-- C1 target -/
theorem qc_sub_fragments_raises_iff (fnd : FoundFragment) (subs : List Fragment) :
    qcSubFragments fnd subs = true ↔
      ((subs.map Fragment.length).sum ≠ fnd.fragment.length
        ∨ (∃ i j, i < j ∧ j < subs.length ∧ (subs.getD i default).overlaps (subs.getD j default))
        ∨ ((specAbutPairCount subs : Int) ≠ (subs.length : Int) - 1)) := by
  unfold qcSubFragments
  rw [pairCounts_eq]
  simp only [Bool.or_eq_true, decide_eq_true_eq]
  rw [← specOverlapPairCount_ne_zero_iff]
  constructor
  · rintro ((h | h) | h)
    · exact Or.inl (Ne.symm h)
    · exact Or.inr (Or.inl h)
    · exact Or.inr (Or.inr h)
  · rintro (h | h | h)
    · exact Or.inl (Or.inl (Ne.symm h))
    · exact Or.inl (Or.inr h)
    · exact Or.inr h


lemma chrConflict_cons_of_not {t : String} {cn : Option String} {ts : List String}
    (h : isChrTag t = false) : chrConflict cn (t :: ts) ↔ chrConflict cn ts := by
  unfold chrConflict
  constructor
  · rintro ⟨x, hx, hcx, hrest⟩
    rcases List.mem_cons.mp hx with rfl | hx'
    · rw [h] at hcx; exact absurd hcx (by simp)
    · refine ⟨x, hx', hcx, ?_⟩
      rcases hrest with hc | ⟨u, hu, hcu, hne⟩
      · exact Or.inl hc
      · rcases List.mem_cons.mp hu with rfl | hu'
        · rw [h] at hcu; exact absurd hcu (by simp)
        · exact Or.inr ⟨u, hu', hcu, hne⟩
  · rintro ⟨x, hx, hcx, hrest⟩
    refine ⟨x, List.mem_cons_of_mem _ hx, hcx, ?_⟩
    rcases hrest with hc | ⟨u, hu, hcu, hne⟩
    · exact Or.inl hc
    · exact Or.inr ⟨u, List.mem_cons_of_mem _ hu, hcu, hne⟩

lemma hapConflict_cons_of_not {t : String} {hp : Option String} {ts : List String}
    (h : isHapCandidate t = false) : hapConflict hp (t :: ts) ↔ hapConflict hp ts := by
  unfold hapConflict
  constructor
  · rintro ⟨x, hx, hcx, hrest⟩
    rcases List.mem_cons.mp hx with rfl | hx'
    · rw [h] at hcx; exact absurd hcx (by simp)
    · refine ⟨x, hx', hcx, ?_⟩
      rcases hrest with hc | ⟨u, hu, hcu, hne⟩
      · exact Or.inl hc
      · rcases List.mem_cons.mp hu with rfl | hu'
        · rw [h] at hcu; exact absurd hcu (by simp)
        · exact Or.inr ⟨u, hu', hcu, hne⟩
  · rintro ⟨x, hx, hcx, hrest⟩
    refine ⟨x, List.mem_cons_of_mem _ hx, hcx, ?_⟩
    rcases hrest with hc | ⟨u, hu, hcu, hne⟩
    · exact Or.inl hc
    · exact Or.inr ⟨u, List.mem_cons_of_mem _ hu, hcu, hne⟩

lemma chrConflict_cons_self {c : String} {ts : List String} :
    chrConflict (some c) (c :: ts) ↔ chrConflict (some c) ts := by
  unfold chrConflict
  constructor
  · rintro ⟨x, hx, hcx, hrest⟩
    rcases hrest with ⟨c', hc', hne⟩ | ⟨u, hu, hcu, hne⟩
    · have hcc : c' = c := by injection hc' with h; exact h.symm
      rcases List.mem_cons.mp hx with hxc | hx'
      · exact absurd (hxc.trans hcc.symm) hne
      · exact ⟨x, hx', hcx, Or.inl ⟨c, rfl, hcc ▸ hne⟩⟩
    · rcases List.mem_cons.mp hx with hxc | hx'
      · rcases List.mem_cons.mp hu with huc | hu'
        · exact absurd (hxc.trans huc.symm) hne
        · exact ⟨u, hu', hcu, Or.inl ⟨c, rfl, fun h => hne (hxc.trans h.symm)⟩⟩
      · rcases List.mem_cons.mp hu with huc | hu'
        · exact ⟨x, hx', hcx, Or.inl ⟨c, rfl, huc ▸ hne⟩⟩
        · exact ⟨x, hx', hcx, Or.inr ⟨u, hu', hcu, hne⟩⟩
  · rintro ⟨x, hx, hcx, hrest⟩
    refine ⟨x, List.mem_cons_of_mem _ hx, hcx, ?_⟩
    rcases hrest with hcc | ⟨u, hu, hcu, hne⟩
    · exact Or.inl hcc
    · exact Or.inr ⟨u, List.mem_cons_of_mem _ hu, hcu, hne⟩

lemma chrConflict_none_cons {t : String} {ts : List String} (hc : isChrTag t = true) :
    chrConflict none (t :: ts) ↔ chrConflict (some t) ts := by
  unfold chrConflict
  constructor
  · rintro ⟨x, hx, hcx, hrest⟩
    rcases hrest with ⟨c', hc', _⟩ | ⟨u, hu, hcu, hne⟩
    · exact absurd hc' (by simp)
    · rcases List.mem_cons.mp hx with hxt | hx'
      · rcases List.mem_cons.mp hu with hut | hu'
        · exact absurd (hxt.trans hut.symm) hne
        · exact ⟨u, hu', hcu, Or.inl ⟨t, rfl, fun h => hne (hxt.trans h.symm)⟩⟩
      · by_cases hxt : x = t
        · rcases List.mem_cons.mp hu with hut | hu'
          · exact absurd (hxt.trans hut.symm) hne
          · exact ⟨u, hu', hcu, Or.inl ⟨t, rfl, fun h => hne (hxt.trans h.symm)⟩⟩
        · exact ⟨x, hx', hcx, Or.inl ⟨t, rfl, hxt⟩⟩
  · rintro ⟨x, hx, hcx, hrest⟩
    rcases hrest with ⟨c', hc', hne⟩ | ⟨u, hu, hcu, hne⟩
    · have hcc : c' = t := by injection hc' with h; exact h.symm
      exact ⟨x, List.mem_cons_of_mem _ hx, hcx,
        Or.inr ⟨t, List.mem_cons_self _ _, hc, hcc ▸ hne⟩⟩
    · exact ⟨x, List.mem_cons_of_mem _ hx, hcx,
        Or.inr ⟨u, List.mem_cons_of_mem _ hu, hcu, hne⟩⟩

lemma hapConflict_none_cons {t : String} {ts : List String}
    (hh : isHapCandidate t = true) (hnin : t ∉ ts) :
    hapConflict none (t :: ts) ↔ hapConflict (some t) ts := by
  unfold hapConflict
  constructor
  · rintro ⟨x, hx, hcx, hrest⟩
    rcases hrest with hne | ⟨u, hu, hcu, hne⟩
    · exact absurd rfl hne
    · rcases List.mem_cons.mp hx with rfl | hx'
      · rcases List.mem_cons.mp hu with rfl | hu'
        · exact absurd rfl hne
        · exact ⟨u, hu', hcu, Or.inl (by simp)⟩
      · exact ⟨x, hx', hcx, Or.inl (by simp)⟩
  · rintro ⟨x, hx, hcx, _⟩
    have hne : t ≠ x := fun h => hnin (h ▸ hx)
    exact ⟨t, List.mem_cons_self _ _, hh,
      Or.inr ⟨x, List.mem_cons_of_mem _ hx, hcx, hne⟩⟩



lemma chrConflict_mono {cn : Option String} {t : String} {ts : List String}
    (h : chrConflict cn ts) : chrConflict cn (t :: ts) := by
  obtain ⟨x, hx, hcx, hrest⟩ := h
  refine ⟨x, List.mem_cons_of_mem _ hx, hcx, ?_⟩
  rcases hrest with hc | ⟨u, hu, hcu, hne⟩
  · exact Or.inl hc
  · exact Or.inr ⟨u, List.mem_cons_of_mem _ hu, hcu, hne⟩

lemma hapConflict_mono {hp : Option String} {t : String} {ts : List String}
    (h : hapConflict hp ts) : hapConflict hp (t :: ts) := by
  obtain ⟨x, hx, hcx, hrest⟩ := h
  refine ⟨x, List.mem_cons_of_mem _ hx, hcx, ?_⟩
  rcases hrest with hc | ⟨u, hu, hcu, hne⟩
  · exact Or.inl hc
  · exact Or.inr ⟨u, List.mem_cons_of_mem _ hu, hcu, hne⟩

lemma isHapCandidate_painted : isHapCandidate "Painted" = false := by
  simp [isHapCandidate]

lemma isHapCandidate_of_reserved {t : String} (h : t ∈ reservedTags) :
    isHapCandidate t = false := by
  simp [isHapCandidate, h]

lemma isHapCandidate_true_of {t : String} (h1 : ¬t = "Painted") (h2 : ¬isChrTag t = true)
    (h3 : ¬t ∈ reservedTags) : isHapCandidate t = true := by
  simp [isHapCandidate, h1, h3]
  simpa using h2

lemma scanTags_cons (t : String) (ts : List String) (cn hp : Option String) (ip : Bool) :
    scanTags (t :: ts) cn hp ip =
      if t = "Painted" then scanTags ts cn hp true
      else if isChrTag t then
        match cn with
        | some c => if t ≠ c then .error .inconsistentChrName else scanTags ts (some c) hp ip
        | none => scanTags ts (some t) hp ip
      else if t ∈ reservedTags then scanTags ts cn hp ip
      else
        match hp with
        | some _ => .error .inconsistentHaplotype
        | none => scanTags ts cn (some t) ip := rfl

lemma scanTags_error_iff (ts : List String) (cn hp : Option String) (ip : Bool)
    (hnd : ts.Nodup) :
    (∃ e, scanTags ts cn hp ip = .error e) ↔ chrConflict cn ts ∨ hapConflict hp ts := by
  induction ts generalizing cn hp ip with
  | nil => simp [scanTags, chrConflict, hapConflict]
  | cons t ts ih =>
    have hnd' : ts.Nodup := (List.nodup_cons.mp hnd).2
    have hnin : t ∉ ts := (List.nodup_cons.mp hnd).1
    show (∃ e, (if t = "Painted" then scanTags ts cn hp true
      else if isChrTag t then
        match cn with
        | some c => if t ≠ c then .error .inconsistentChrName else scanTags ts (some c) hp ip
        | none => scanTags ts (some t) hp ip
      else if t ∈ reservedTags then scanTags ts cn hp ip
      else
        match hp with
        | some _ => .error .inconsistentHaplotype
        | none => scanTags ts cn (some t) ip) = .error e) ↔ _
    by_cases hP : t = "Painted"
    · subst hP
      rw [if_pos rfl, ih _ _ _ hnd',
        chrConflict_cons_of_not (by decide), hapConflict_cons_of_not isHapCandidate_painted]
    · rw [if_neg hP]
      by_cases hC : isChrTag t = true
      · rw [if_pos hC]
        cases cn with
        | some c =>
          change (∃ e, (if t ≠ c then Except.error ChrErr.inconsistentChrName
            else scanTags ts (some c) hp ip) = Except.error e) ↔ _
          by_cases htc : t = c
          · subst htc
            have : ¬t ≠ t := by simp
            rw [if_neg this, ih _ _ _ hnd', chrConflict_cons_self,
              hapConflict_cons_of_not (by simp [isHapCandidate, hC])]
          · rw [if_pos htc]
            have hl : ∃ e, (Except.error ChrErr.inconsistentChrName :
                Except ChrErr (Option String × Option String × Bool)) = .error e := ⟨_, rfl⟩
            have hr : chrConflict (some c) (t :: ts) :=
              ⟨t, List.mem_cons_self _ _, hC, Or.inl ⟨c, rfl, htc⟩⟩
            exact iff_of_true hl (Or.inl hr)
        | none =>
          change (∃ e, scanTags ts (some t) hp ip = Except.error e) ↔ _
          rw [ih _ _ _ hnd', chrConflict_none_cons hC,
            hapConflict_cons_of_not (by simp [isHapCandidate, hC])]
      · rw [if_neg hC]
        by_cases hR : t ∈ reservedTags
        · rw [if_pos hR, ih _ _ _ hnd',
            chrConflict_cons_of_not (by simpa using hC),
            hapConflict_cons_of_not (isHapCandidate_of_reserved hR)]
        · rw [if_neg hR]
          have hH : isHapCandidate t = true := isHapCandidate_true_of hP hC hR
          cases hp with
          | some h0 =>
            have hl : ∃ e, (Except.error ChrErr.inconsistentHaplotype :
                Except ChrErr (Option String × Option String × Bool)) = .error e := ⟨_, rfl⟩
            have hr : hapConflict (some h0) (t :: ts) :=
              ⟨t, List.mem_cons_self _ _, hH, Or.inl (by simp)⟩
            exact iff_of_true hl (Or.inr hr)
          | none =>
            change (∃ e, scanTags ts cn (some t) ip = Except.error e) ↔ _
            rw [ih _ _ _ hnd', chrConflict_cons_of_not (by simpa using hC),
              hapConflict_none_cons hH hnin]



lemma scanTags_error_chr (ts : List String) (cn hp : Option String) (ip : Bool)
    (hnd : ts.Nodup) (h : scanTags ts cn hp ip = .error .inconsistentChrName) :
    chrConflict cn ts := by
  induction ts generalizing cn hp ip with
  | nil => exact absurd h (by simp [scanTags])
  | cons t ts ih =>
    have hnd' : ts.Nodup := (List.nodup_cons.mp hnd).2
    rw [scanTags_cons] at h
    by_cases hP : t = "Painted"
    · subst hP
      rw [if_pos rfl] at h
      exact (chrConflict_cons_of_not (by decide)).mpr (ih _ _ _ hnd' h)
    · rw [if_neg hP] at h
      by_cases hC : isChrTag t = true
      · rw [if_pos hC] at h
        cases cn with
        | some c =>
          change (if t ≠ c then Except.error ChrErr.inconsistentChrName
            else scanTags ts (some c) hp ip) = _ at h
          by_cases htc : t = c
          · subst htc
            have hne : ¬t ≠ t := by simp
            rw [if_neg hne] at h
            exact (chrConflict_cons_self).mpr (ih _ _ _ hnd' h)
          · exact ⟨t, List.mem_cons_self _ _, hC, Or.inl ⟨c, rfl, htc⟩⟩
        | none =>
          change scanTags ts (some t) hp ip = _ at h
          exact (chrConflict_none_cons hC).mpr (ih _ _ _ hnd' h)
      · rw [if_neg hC] at h
        by_cases hR : t ∈ reservedTags
        · rw [if_pos hR] at h
          exact (chrConflict_cons_of_not (by simpa using hC)).mpr (ih _ _ _ hnd' h)
        · rw [if_neg hR] at h
          cases hp with
          | some h0 => exact absurd h (by simp)
          | none =>
            change scanTags ts cn (some t) ip = _ at h
            exact (chrConflict_cons_of_not (by simpa using hC)).mpr (ih _ _ _ hnd' h)

lemma scanTags_error_hap (ts : List String) (cn hp : Option String) (ip : Bool)
    (hnd : ts.Nodup) (h : scanTags ts cn hp ip = .error .inconsistentHaplotype) :
    hapConflict hp ts := by
  induction ts generalizing cn hp ip with
  | nil => exact absurd h (by simp [scanTags])
  | cons t ts ih =>
    have hnd' : ts.Nodup := (List.nodup_cons.mp hnd).2
    have hnin : t ∉ ts := (List.nodup_cons.mp hnd).1
    rw [scanTags_cons] at h
    by_cases hP : t = "Painted"
    · subst hP
      rw [if_pos rfl] at h
      exact (hapConflict_cons_of_not isHapCandidate_painted).mpr (ih _ _ _ hnd' h)
    · rw [if_neg hP] at h
      by_cases hC : isChrTag t = true
      · rw [if_pos hC] at h
        have hHf : isHapCandidate t = false := by simp [isHapCandidate, hC]
        cases cn with
        | some c =>
          change (if t ≠ c then Except.error ChrErr.inconsistentChrName
            else scanTags ts (some c) hp ip) = _ at h
          by_cases htc : t = c
          · subst htc
            have hne : ¬t ≠ t := by simp
            rw [if_neg hne] at h
            exact (hapConflict_cons_of_not hHf).mpr (ih _ _ _ hnd' h)
          · rw [if_pos htc] at h
            exact absurd h (by simp)
        | none =>
          change scanTags ts (some t) hp ip = _ at h
          exact (hapConflict_cons_of_not hHf).mpr (ih _ _ _ hnd' h)
      · rw [if_neg hC] at h
        by_cases hR : t ∈ reservedTags
        · rw [if_pos hR] at h
          exact (hapConflict_cons_of_not (isHapCandidate_of_reserved hR)).mpr
            (ih _ _ _ hnd' h)
        · rw [if_neg hR] at h
          have hH : isHapCandidate t = true := isHapCandidate_true_of hP hC hR
          cases hp with
          | some h0 => exact ⟨t, List.mem_cons_self _ _, hH, Or.inl (by simp)⟩
          | none =>
            change scanTags ts cn (some t) ip = _ at h
            exact (hapConflict_none_cons hH hnin).mpr (ih _ _ _ hnd' h)

lemma scanTags_ok_unchanged (ts : List String) (cn hp : Option String) (ip : Bool)
    (hchr : ∀ t ∈ ts, isChrTag t = false) (hpt : "Painted" ∉ ts)
    (cn' hp' : Option String) (ip' : Bool)
    (h : scanTags ts cn hp ip = .ok (cn', hp', ip')) : cn' = cn ∧ ip' = ip := by
  induction ts generalizing hp with
  | nil =>
    change Except.ok (cn, hp, ip) = Except.ok (cn', hp', ip') at h
    injection h with h2
    exact ⟨(congrArg (fun p => p.1) h2).symm, (congrArg (fun p => p.2.2) h2).symm⟩
  | cons t ts ih =>
    have hP : ¬t = "Painted" := fun he => hpt (he ▸ List.mem_cons_self _ _)
    have hC : isChrTag t = false := hchr t (List.mem_cons_self _ _)
    have hchr' : ∀ u ∈ ts, isChrTag u = false := fun u hu => hchr u (List.mem_cons_of_mem _ hu)
    have hpt' : "Painted" ∉ ts := fun hm => hpt (List.mem_cons_of_mem _ hm)
    rw [scanTags_cons] at h
    rw [if_neg hP, if_neg (by simp [hC])] at h
    by_cases hR : t ∈ reservedTags
    · rw [if_pos hR] at h
      exact ih hp hchr' hpt' h
    · rw [if_neg hR] at h
      cases hp with
      | some h0 => exact absurd h (by simp)
      | none =>
        change scanTags ts cn (some t) ip = _ at h
        exact ih (some t) hchr' hpt' h



lemma chrConflict_none_iff (ts : List String) :
    chrConflict none ts ↔
      ∃ t1 ∈ ts, ∃ t2 ∈ ts, isChrTag t1 ∧ isChrTag t2 ∧ t1 ≠ t2 := by
  unfold chrConflict
  constructor
  · rintro ⟨t, ht, hct, hrest⟩
    rcases hrest with ⟨c, hc, -⟩ | ⟨u, hu, hcu, hne⟩
    · exact absurd hc (by simp)
    · exact ⟨t, ht, u, hu, hct, hcu, hne⟩
  · rintro ⟨t1, h1, t2, h2, hc1, hc2, hne⟩
    exact ⟨t1, h1, hc1, Or.inr ⟨t2, h2, hc2, hne⟩⟩

lemma hapConflict_none_iff (ts : List String) :
    hapConflict none ts ↔
      ∃ t1 ∈ ts, ∃ t2 ∈ ts, isHapCandidate t1 ∧ isHapCandidate t2 ∧ t1 ≠ t2 := by
  unfold hapConflict
  constructor
  · rintro ⟨t, ht, hct, hrest⟩
    rcases hrest with hne | ⟨u, hu, hcu, hne⟩
    · exact absurd rfl hne
    · exact ⟨t, ht, u, hu, hct, hcu, hne⟩
  · rintro ⟨t1, h1, t2, h2, hc1, hc2, hne⟩
    exact ⟨t1, h1, hc1, Or.inr ⟨t2, h2, hc2, hne⟩⟩

lemma fragment_tags_nodup (s : Scaffold) : s.fragment_tags.Nodup := by
  unfold Scaffold.fragment_tags
  exact List.nodup_dedup _

lemma makeChrName_of_error {nm : ChrNamer} {s : Scaffold} {e : ChrErr}
    (h : scanTags s.fragment_tags none none false = .error e) :
    nm.makeChrName s = (some e, nm) := by
  unfold ChrNamer.makeChrName
  rw [h]

lemma makeChrName_fst_of_ok {nm : ChrNamer} {s : Scaffold}
    {v : Option String × Option String × Bool}
    (h : scanTags s.fragment_tags none none false = .ok v) :
    (nm.makeChrName s).1 = none := by
  unfold ChrNamer.makeChrName
  rw [h]

/-- C6: `make_chr_name` raises iff the scaffold's tag union holds two distinct
chromosome-name tags (`InconsistentChrName`) or two distinct haplotype
candidates (`InconsistentHaplotype`). -/
theorem make_chr_name_raises_iff (nm : ChrNamer) (s : Scaffold) (f : Fragment)
    (hwf : s.rows.head? = some (.fragment f)) :
    ((nm.makeChrName s).1 ≠ none ↔
      ((∃ t1 ∈ s.fragment_tags, ∃ t2 ∈ s.fragment_tags,
          isChrTag t1 ∧ isChrTag t2 ∧ t1 ≠ t2)
        ∨ (∃ t1 ∈ s.fragment_tags, ∃ t2 ∈ s.fragment_tags,
            isHapCandidate t1 ∧ isHapCandidate t2 ∧ t1 ≠ t2)))
    ∧ ((nm.makeChrName s).1 = some .inconsistentChrName →
        ∃ t1 ∈ s.fragment_tags, ∃ t2 ∈ s.fragment_tags,
          isChrTag t1 ∧ isChrTag t2 ∧ t1 ≠ t2)
    ∧ ((nm.makeChrName s).1 = some .inconsistentHaplotype →
        ∃ t1 ∈ s.fragment_tags, ∃ t2 ∈ s.fragment_tags,
          isHapCandidate t1 ∧ isHapCandidate t2 ∧ t1 ≠ t2) := by
  have hnd := fragment_tags_nodup s
  cases hscan : scanTags s.fragment_tags none none false with
  | error e =>
    rw [makeChrName_of_error hscan]
    refine ⟨?_, ?_, ?_⟩
    · have hc := (scanTags_error_iff s.fragment_tags none none false hnd).mp ⟨e, hscan⟩
      rcases hc with hc | hc
      · exact iff_of_true (by simp) (Or.inl ((chrConflict_none_iff _).mp hc))
      · exact iff_of_true (by simp) (Or.inr ((hapConflict_none_iff _).mp hc))
    · intro he
      have : e = .inconsistentChrName := by injection he
      subst this
      exact (chrConflict_none_iff _).mp
        (scanTags_error_chr s.fragment_tags none none false hnd hscan)
    · intro he
      have : e = .inconsistentHaplotype := by injection he
      subst this
      exact (hapConflict_none_iff _).mp
        (scanTags_error_hap s.fragment_tags none none false hnd hscan)
  | ok v =>
    have hfst := @makeChrName_fst_of_ok nm _ _ hscan
    refine ⟨?_, ?_, ?_⟩
    · rw [hfst]
      constructor
      · intro hne; exact absurd rfl hne
      · rintro (hc | hc)
        · have := (scanTags_error_iff s.fragment_tags none none false hnd).mpr
            (Or.inl ((chrConflict_none_iff _).mpr hc))
          obtain ⟨e, he⟩ := this
          rw [hscan] at he
          exact absurd he (by simp)
        · have := (scanTags_error_iff s.fragment_tags none none false hnd).mpr
            (Or.inr ((hapConflict_none_iff _).mpr hc))
          obtain ⟨e, he⟩ := this
          rw [hscan] at he
          exact absurd he (by simp)
    · rw [hfst]; intro he; exact absurd he (by simp)
    · rw [hfst]; intro he; exact absurd he (by simp)



/-- C7: on a scaffold with no chromosome-name tag and no "Painted" tag,
`make_chr_name` keeps the first row's target-sequence name as the chromosome
name, and adopts the name's underscore prefix as haplotype when that prefix is
already in `haplotype_set`. -/
theorem make_chr_name_unpainted_uses_first_row_name (nm nm' : ChrNamer) (s : Scaffold)
    (f : Fragment) (hwf : s.rows.head? = some (.fragment f))
    (hchr : ∀ t ∈ s.fragment_tags, isChrTag t = false)
    (hpt : "Painted" ∉ s.fragment_tags)
    (hok : nm.makeChrName s = (none, nm')) :
    nm'.current_chr_name = some (firstRowName s)
    ∧ ∀ pre, prefixBeforeUnderscore (firstRowName s) = some pre →
        pre ∈ nm.haplotype_set → nm'.current_haplotype = some pre := by
  cases hscan : scanTags s.fragment_tags none none false with
  | error e =>
    rw [makeChrName_of_error hscan] at hok
    exact absurd (congrArg Prod.fst hok) (by simp)
  | ok v =>
    obtain ⟨cn, hp, ip⟩ := v
    obtain ⟨hcn, hip⟩ := scanTags_ok_unchanged s.fragment_tags none none false
      hchr hpt cn hp ip hscan
    subst hcn
    subst hip
    unfold ChrNamer.makeChrName at hok
    rw [hscan] at hok
    have hok2 := congrArg Prod.snd hok
    dsimp at hok2
    subst hok2
    refine ⟨rfl, fun pre hpre hmem => ?_⟩
    dsimp
    rw [hpre]
    change (if pre ∈ nm.haplotype_set then some pre else hp) = some pre
    rw [if_pos hmem]

/-- C10: when `make_chr_name` raises, the `ChrNamer` state is unchanged: no
attribute is assigned before either `raise` in the method. -/
theorem make_chr_name_error_preserves_state (nm : ChrNamer) (s : Scaffold) (e : ChrErr)
    (h : (nm.makeChrName s).1 = some e) :
    (nm.makeChrName s).2.chr_name_n = nm.chr_name_n
    ∧ (nm.makeChrName s).2.haplotig_n = nm.haplotig_n
    ∧ (nm.makeChrName s).2.unloc_n = nm.unloc_n
    ∧ (nm.makeChrName s).2.current_chr_name = nm.current_chr_name
    ∧ (nm.makeChrName s).2.current_haplotype = nm.current_haplotype
    ∧ (nm.makeChrName s).2.haplotype_set = nm.haplotype_set
    ∧ (nm.makeChrName s).2.haplotig_scaffolds = nm.haplotig_scaffolds
    ∧ (nm.makeChrName s).2.unloc_scaffolds = nm.unloc_scaffolds := by
  cases hscan : scanTags s.fragment_tags none none false with
  | error e' =>
    rw [makeChrName_of_error hscan]
    exact ⟨rfl, rfl, rfl, rfl, rfl, rfl, rfl, rfl⟩
  | ok v =>
    have := @makeChrName_fst_of_ok nm _ _ hscan
    rw [this] at h
    exact absurd h (by simp)


/-- Witness for C1-adjacent lemmas is not needed (no hypotheses), but C6, C7
and C10 carry hypotheses; each witness below applies its theorem at a concrete
input. -/
theorem make_chr_name_raises_iff_witness :
    (ChrNamer.init.makeChrName chrClashScaffold).1 ≠ none :=
  (make_chr_name_raises_iff ChrNamer.init chrClashScaffold
    ⟨"ctg1", 1, 100, .plus, ["A1", "B2"]⟩ rfl).1.mpr (by decide)

theorem make_chr_name_unpainted_uses_first_row_name_witness :
    ((namerWithHapA.makeChrName unpaintedScaffold).2).current_chr_name = some "A_contig_7"
    ∧ ((namerWithHapA.makeChrName unpaintedScaffold).2).current_haplotype = some "A" :=
  have h := make_chr_name_unpainted_uses_first_row_name namerWithHapA
    ((namerWithHapA.makeChrName unpaintedScaffold).2) unpaintedScaffold
    ⟨"A_contig_7", 1, 50, .plus, []⟩ rfl (by decide) (by decide) (by decide)
  ⟨h.1.trans (by decide), h.2 "A" (by decide) (by decide)⟩

theorem make_chr_name_error_preserves_state_witness :
    (ChrNamer.init.makeChrName chrClashScaffold).2.chr_name_n = ChrNamer.init.chr_name_n
    ∧ (ChrNamer.init.makeChrName chrClashScaffold).2.haplotig_n = ChrNamer.init.haplotig_n
    ∧ (ChrNamer.init.makeChrName chrClashScaffold).2.unloc_n = ChrNamer.init.unloc_n
    ∧ (ChrNamer.init.makeChrName chrClashScaffold).2.current_chr_name
        = ChrNamer.init.current_chr_name
    ∧ (ChrNamer.init.makeChrName chrClashScaffold).2.current_haplotype
        = ChrNamer.init.current_haplotype
    ∧ (ChrNamer.init.makeChrName chrClashScaffold).2.haplotype_set
        = ChrNamer.init.haplotype_set
    ∧ (ChrNamer.init.makeChrName chrClashScaffold).2.haplotig_scaffolds
        = ChrNamer.init.haplotig_scaffolds
    ∧ (ChrNamer.init.makeChrName chrClashScaffold).2.unloc_scaffolds
        = ChrNamer.init.unloc_scaffolds :=
  make_chr_name_error_preserves_state ChrNamer.init chrClashScaffold
    .inconsistentChrName (by decide)

lemma find?_eq_of_fst_nodup {Q : List (Nat × Scaffold)} {i : Nat} {v : Scaffold}
    (hnd : (Q.map Prod.fst).Nodup) (hmem : (i, v) ∈ Q) :
    Q.find? (fun q => q.1 = i) = some (i, v) := by
  induction Q with
  | nil => exact absurd hmem (List.not_mem_nil _)
  | cons a Q ih =>
    by_cases hai : a.1 = i
    · rw [List.find?_cons_of_pos _ (by simp [hai])]
      rcases List.mem_cons.mp hmem with he | hm
      · rw [he]
      · exact absurd (List.mem_map.mpr ⟨(i, v), hm, rfl⟩ : i ∈ Q.map Prod.fst)
          (hai ▸ (List.nodup_cons.mp (by simpa using hnd)).1)
    · rw [List.find?_cons_of_neg _ (by simp [hai])]
      refine ih (List.nodup_cons.mp (by simpa using hnd)).2 ?_
      rcases List.mem_cons.mp hmem with he | hm
      · exact absurd (congrArg Prod.fst he).symm hai
      · exact hm

lemma find?_erase_of_not {p : Nat × Scaffold → Bool} {a : Nat × Scaffold}
    (Q : List (Nat × Scaffold)) (ha : p a = false) :
    (@List.erase _ instBEqOfDecidableEq Q a).find? p = Q.find? p := by
  letI : BEq (Nat × Scaffold) := instBEqOfDecidableEq
  induction Q with
  | nil => rfl
  | cons b Q ih =>
    rw [List.erase_cons]
    by_cases hba : b = a
    · rw [if_pos (show (b == a) = true from by
        show decide (b = a) = true; simp [hba])]
      rw [List.find?_cons_of_neg _ (by simp [hba, ha])]
    · rw [if_neg (show ¬(b == a) = true from by
        show ¬decide (b = a) = true; simp [hba])]
      by_cases hpb : p b = true
      · rw [List.find?_cons_of_pos _ hpb, List.find?_cons_of_pos _ hpb]
      · rw [List.find?_cons_of_neg _ (by simpa using hpb),
          List.find?_cons_of_neg _ (by simpa using hpb), ih]

lemma scatter_perm : ∀ (idxs : List Nat) (Q : List (Nat × Scaffold)),
    idxs.Nodup → (Q.map Prod.fst).Perm idxs →
    (idxs.map (fun i =>
        ((Q.find? (fun q => q.1 = i)).map Prod.snd).getD ⟨"", [], none, none⟩)).Perm
      (Q.map Prod.snd)
  | [], Q, _, hperm => by
    have hQ : Q = [] := List.map_eq_nil_iff.mp hperm.eq_nil
    subst hQ
    rfl
  | i :: idxs, Q, hnd, hperm => by
    letI : BEq (Nat × Scaffold) := instBEqOfDecidableEq
    have hndQ : (Q.map Prod.fst).Nodup := hperm.nodup_iff.mpr hnd
    have hi : i ∈ Q.map Prod.fst := hperm.mem_iff.mpr (List.mem_cons_self _ _)
    obtain ⟨q, hq, hfst⟩ := List.mem_map.mp hi
    have hqiv : (i, q.2) ∈ Q := by
      have : q = (i, q.2) := by
        rw [← hfst]
      exact this ▸ hq
    have hfind : Q.find? (fun q' => q'.1 = i) = some (i, q.2) :=
      find?_eq_of_fst_nodup hndQ hqiv
    have hQperm : Q.Perm ((i, q.2) :: Q.erase (i, q.2)) := List.perm_cons_erase hqiv
    have hfsts : (Q.map Prod.fst).Perm (i :: (Q.erase (i, q.2)).map Prod.fst) :=
      hQperm.map Prod.fst
    have herased : ((Q.erase (i, q.2)).map Prod.fst).Perm idxs :=
      (hfsts.symm.trans hperm).cons_inv
    have hndE : ((Q.erase (i, q.2)).map Prod.fst).Nodup :=
      hndQ.sublist ((List.erase_sublist _ _).map Prod.fst)
    have hnin : i ∉ idxs := (List.nodup_cons.mp hnd).1
    have hih := scatter_perm idxs (Q.erase (i, q.2)) (List.nodup_cons.mp hnd).2 herased
    have hcongr : idxs.map (fun i' =>
          ((Q.find? (fun q' => q'.1 = i')).map Prod.snd).getD ⟨"", [], none, none⟩)
        = idxs.map (fun i' =>
          (((Q.erase (i, q.2)).find? (fun q' => q'.1 = i')).map Prod.snd).getD
            ⟨"", [], none, none⟩) := by
      refine List.map_congr_left fun i' hi' => ?_
      have hne : ¬i = i' := fun he => hnin (he ▸ hi')
      rw [find?_erase_of_not _ (by simpa using hne)]
    rw [List.map_cons, hfind, hcongr]
    exact (hih.cons q.2).trans (hQperm.map Prod.snd).symm


lemma bySizeOrder_length (l : List Scaffold) : (bySizeOrder l).length = l.length := by
  unfold bySizeOrder
  rw [List.length_insertionSort, List.enum_length]

lemma renamedPairs_map_fst (l : List Scaffold) :
    (renamedPairs l).map Prod.fst = (bySizeOrder l).map Prod.fst := by
  unfold renamedPairs
  rw [List.map_map]
  have h2 : ((bySizeOrder l).zip (l.map (·.name))).map
        (Prod.fst ∘ fun q => (q.1.1, { q.1.2 with name := q.2 }))
      = ((bySizeOrder l).zip (l.map (·.name))).map (Prod.fst ∘ Prod.fst) :=
    List.map_congr_left fun q _ => rfl
  rw [h2, ← List.map_map,
    List.map_fst_zip _ _ (by rw [bySizeOrder_length, List.length_map])]

lemma bySizeOrder_fst_perm (l : List Scaffold) :
    ((bySizeOrder l).map Prod.fst).Perm (List.range l.length) := by
  have h := (List.perm_insertionSort
    (fun a b : Nat × Scaffold => b.2.length ≤ a.2.length) l.enum).map Prod.fst
  rw [List.enum_map_fst] at h
  exact h

lemma bySizeOrder_fst_nodup (l : List Scaffold) :
    ((bySizeOrder l).map Prod.fst).Nodup :=
  (bySizeOrder_fst_perm l).nodup_iff.mpr (List.nodup_range _)

lemma bySizeOrder_sorted (l : List Scaffold) :
    List.Sorted (fun a b : Nat × Scaffold => b.2.length ≤ a.2.length) (bySizeOrder l) := by
  haveI : IsTotal (Nat × Scaffold) (fun a b => b.2.length ≤ a.2.length) :=
    ⟨fun a b => le_total b.2.length a.2.length⟩
  haveI : IsTrans (Nat × Scaffold) (fun a b => b.2.length ≤ a.2.length) :=
    ⟨fun _ _ _ hab hbc => le_trans hbc hab⟩
  exact List.sorted_insertionSort _ _

lemma renamedPairs_names (l : List Scaffold) :
    ((renamedPairs l).map Prod.snd).map Scaffold.name = l.map Scaffold.name := by
  unfold renamedPairs
  rw [List.map_map, List.map_map]
  have h2 : ((bySizeOrder l).zip (l.map (·.name))).map
        ((Scaffold.name ∘ Prod.snd) ∘ fun q => (q.1.1, { q.1.2 with name := q.2 }))
      = ((bySizeOrder l).zip (l.map (·.name))).map Prod.snd :=
    List.map_congr_left fun q _ => rfl
  rw [h2, List.map_snd_zip _ _ (by rw [bySizeOrder_length, List.length_map])]

lemma renameBySize_of_ne_nil {l : List Scaffold} (hne : l ≠ []) :
    renameBySize l = (List.range l.length).map
      (fun i => (((renamedPairs l).find? (fun q => q.1 = i)).map Prod.snd).getD
        ⟨"", [], none, none⟩) := by
  unfold renameBySize
  rw [if_neg (fun h => hne (List.isEmpty_iff.mp h))]

lemma renamedPairs_get (l : List Scaffold) (j : Nat)
    (hj1 : j < (renamedPairs l).length) (hj2 : j < (bySizeOrder l).length)
    (hj3 : j < (l.map Scaffold.name).length) :
    (renamedPairs l).get ⟨j, hj1⟩
      = (((bySizeOrder l).get ⟨j, hj2⟩).1,
        { ((bySizeOrder l).get ⟨j, hj2⟩).2 with
          name := (l.map Scaffold.name).get ⟨j, hj3⟩ }) := by
  simp only [List.get_eq_getElem]
  unfold renamedPairs
  rw [List.getElem_map, List.getElem_zip]

/-- C8: `rename_by_size` permutes the bucket's names (the multiset of names is
unchanged), the scaffolds sorted by length descending carry descending lengths,
and the scaffold at sorted rank `j` ends up, at its original bucket position,
bearing the `j`-th name of the original insertion order. -/
theorem rename_by_size_spec (l : List Scaffold) :
    ((renameBySize l).map Scaffold.name).Perm (l.map Scaffold.name)
    ∧ (∀ j, j + 1 < l.length →
        ((bySizeOrder l).getD (j + 1) (0, ⟨"", [], none, none⟩)).2.length
          ≤ ((bySizeOrder l).getD j (0, ⟨"", [], none, none⟩)).2.length)
    ∧ (∀ j, j < l.length →
        (renameBySize l).getD
            ((bySizeOrder l).getD j (0, ⟨"", [], none, none⟩)).1 ⟨"", [], none, none⟩
          = { ((bySizeOrder l).getD j (0, ⟨"", [], none, none⟩)).2 with
              name := (l.map Scaffold.name).getD j "" })
    ∧ (∀ j, j + 1 < l.length →
        ((renameBySize l).getD
            ((bySizeOrder l).getD (j + 1) (0, ⟨"", [], none, none⟩)).1
            ⟨"", [], none, none⟩).length
          ≤ ((renameBySize l).getD
              ((bySizeOrder l).getD j (0, ⟨"", [], none, none⟩)).1
              ⟨"", [], none, none⟩).length) := by
  by_cases hne : l = []
  · subst hne
    refine ⟨by rfl, ?_, ?_, ?_⟩ <;> intro j hj <;> simp at hj
  have hfstperm : ((renamedPairs l).map Prod.fst).Perm (List.range l.length) := by
    rw [renamedPairs_map_fst]; exact bySizeOrder_fst_perm l
  have hfstnodup : ((renamedPairs l).map Prod.fst).Nodup := by
    rw [renamedPairs_map_fst]; exact bySizeOrder_fst_nodup l
  have hbody := renameBySize_of_ne_nil hne
  -- (c) first: positional characterisation
  have hc : ∀ j, j < l.length →
      (renameBySize l).getD
          ((bySizeOrder l).getD j (0, ⟨"", [], none, none⟩)).1 ⟨"", [], none, none⟩
        = { ((bySizeOrder l).getD j (0, ⟨"", [], none, none⟩)).2 with
            name := (l.map Scaffold.name).getD j "" } := by
    intro j hj
    have hjb : j < (bySizeOrder l).length := by rw [bySizeOrder_length]; exact hj
    have hjr : j < (renamedPairs l).length := by
      unfold renamedPairs
      rw [List.length_map, List.length_zip, bySizeOrder_length, List.length_map,
        Nat.min_self]
      exact hj
    have hjm : j < (l.map Scaffold.name).length := by rw [List.length_map]; exact hj
    have hgb : (bySizeOrder l).getD j (0, ⟨"", [], none, none⟩) = (bySizeOrder l)[j] :=
      List.getD_eq_getElem _ _ hjb
    have hgm : (l.map Scaffold.name).getD j "" = (l.map Scaffold.name)[j] :=
      List.getD_eq_getElem _ _ hjm
    rw [hgb, hgm]
    have hmem : ((bySizeOrder l)[j].1,
        { (bySizeOrder l)[j].2 with name := (l.map Scaffold.name)[j] }) ∈ renamedPairs l := by
      have hget := renamedPairs_get l j hjr hjb hjm
      simp only [List.get_eq_getElem] at hget
      rw [← hget]
      exact List.getElem_mem hjr
    have hfind : (renamedPairs l).find?
        (fun q => q.1 = (bySizeOrder l)[j].1)
        = some ((bySizeOrder l)[j].1,
          { (bySizeOrder l)[j].2 with name := (l.map Scaffold.name)[j] }) :=
      find?_eq_of_fst_nodup hfstnodup hmem
    have hq1 : (bySizeOrder l)[j].1 < l.length := by
      have h1 : (bySizeOrder l)[j].1 ∈ (bySizeOrder l).map Prod.fst :=
        List.mem_map.mpr ⟨_, List.getElem_mem hjb, rfl⟩
      exact List.mem_range.mp ((bySizeOrder_fst_perm l).mem_iff.mp h1)
    have hq1' : (bySizeOrder l)[j].1 < ((List.range l.length).map
        (fun i => (((renamedPairs l).find? (fun q => q.1 = i)).map Prod.snd).getD
          ⟨"", [], none, none⟩)).length := by
      rw [List.length_map, List.length_range]
      exact hq1
    rw [hbody, List.getD_eq_getElem _ _ hq1', List.getElem_map, List.getElem_range, hfind]
    rfl
  refine ⟨?_, ?_, hc, ?_⟩
  · -- names perm
    have hsc := scatter_perm (List.range l.length) (renamedPairs l)
      (List.nodup_range _) hfstperm
    have hmap := hsc.map Scaffold.name
    rw [renamedPairs_names] at hmap
    rw [hbody, List.map_map]
    rw [List.map_map] at hmap
    exact hmap
  · -- sortedness of bySizeOrder
    intro j hj
    have hjb : j < (bySizeOrder l).length := by
      rw [bySizeOrder_length]; omega
    have hjb1 : j + 1 < (bySizeOrder l).length := by
      rw [bySizeOrder_length]; exact hj
    rw [List.getD_eq_getElem _ _ hjb, List.getD_eq_getElem _ _ hjb1]
    have := (bySizeOrder_sorted l).rel_get_of_lt
      (a := ⟨j, hjb⟩) (b := ⟨j + 1, hjb1⟩) (by simp)
    simpa using this
  · -- monotone lengths through renaming
    intro j hj
    have hj0 : j < l.length := by omega
    have hj1 : j + 1 < l.length := hj
    rw [hc j hj0, hc (j + 1) hj1]
    have hjb : j < (bySizeOrder l).length := by rw [bySizeOrder_length]; exact hj0
    have hjb1 : j + 1 < (bySizeOrder l).length := by rw [bySizeOrder_length]; exact hj1
    have hsort := (bySizeOrder_sorted l).rel_get_of_lt
      (a := ⟨j, hjb⟩) (b := ⟨j + 1, hjb1⟩) (by simp)
    have hlen1 : ∀ (s : Scaffold) (n : String),
        Scaffold.length { s with name := n } = s.length := fun _ _ => rfl
    rw [List.getD_eq_getElem _ _ hjb, List.getD_eq_getElem _ _ hjb1, hlen1, hlen1]
    simpa using hsort

theorem rename_by_size_spec_witness :
    ((renameBySize haplotigBucket).map Scaffold.name).Perm
      (haplotigBucket.map Scaffold.name)
    ∧ ((bySizeOrder haplotigBucket).getD 1 (0, ⟨"", [], none, none⟩)).2.length
        ≤ ((bySizeOrder haplotigBucket).getD 0 (0, ⟨"", [], none, none⟩)).2.length
    ∧ (renameBySize haplotigBucket).getD
          ((bySizeOrder haplotigBucket).getD 0 (0, ⟨"", [], none, none⟩)).1
          ⟨"", [], none, none⟩
        = { ((bySizeOrder haplotigBucket).getD 0 (0, ⟨"", [], none, none⟩)).2 with
            name := (haplotigBucket.map Scaffold.name).getD 0 "" }
    ∧ ((renameBySize haplotigBucket).getD
          ((bySizeOrder haplotigBucket).getD 1 (0, ⟨"", [], none, none⟩)).1
          ⟨"", [], none, none⟩).length
        ≤ ((renameBySize haplotigBucket).getD
            ((bySizeOrder haplotigBucket).getD 0 (0, ⟨"", [], none, none⟩)).1
            ⟨"", [], none, none⟩).length :=
  have h := rename_by_size_spec haplotigBucket
  ⟨h.1, h.2.1 0 (by decide), h.2.2.1 0 (by decide), h.2.2.2 0 (by decide)⟩

lemma addMissing_foldl_some (foundKeys : List (String × Int × Int × Strand))
    (dg : Gap) (name : String) (rows : List Row) :
    ∀ (ps : List (Nat × Fragment)) (ns : Scaffold) (li : Nat),
    ∃ li', ps.foldl (addMissingStep foundKeys dg name rows) (some ns, some li)
      = (some ⟨ns.name, ns.rows ++
          specKeptRows rows dg li (ps.filter (fun p => p.2.key_tuple ∉ foundKeys)),
          ns.haplotype, ns.tag⟩,
        some li')
  | [], ns, li => ⟨li, by simp [specKeptRows]⟩
  | (i, f) :: rest, ns, li => by
    by_cases hk : f.key_tuple ∈ foundKeys
    · have hstep : addMissingStep foundKeys dg name rows (some ns, some li) (i, f)
          = (some ns, some li) := by
        unfold addMissingStep
        rw [if_pos hk]
      rw [List.foldl_cons, hstep,
        List.filter_cons_of_neg (by simpa using hk)]
      exact addMissing_foldl_some foundKeys dg name rows rest ns li
    · have hstep : addMissingStep foundKeys dg name rows (some ns, some li) (i, f)
          = (some { ns with rows := ns.rows ++ specGapBetween rows dg li i
              ++ [.fragment f] }, some i) := by
        unfold addMissingStep specGapBetween
        rw [if_neg hk]
        by_cases hadj : li + 1 = i
        · simp [Scaffold.addRow, hadj]
        · cases hrow : rows.getD (i - 1) default with
          | gap g => simp [Scaffold.addRow, hadj, hrow]
          | fragment f2 => simp [Scaffold.addRow, hadj, hrow]
      rw [List.foldl_cons, hstep, List.filter_cons_of_pos (by simpa using hk)]
      obtain ⟨li', hrec⟩ := addMissing_foldl_some foundKeys dg name rows rest
        ⟨ns.name, ns.rows ++ specGapBetween rows dg li i ++ [.fragment f],
          ns.haplotype, ns.tag⟩ i
      refine ⟨li', ?_⟩
      rw [hrec]
      simp [specKeptRows, List.append_assoc]

lemma addMissing_foldl_none_of_all_found (foundKeys : List (String × Int × Int × Strand))
    (dg : Gap) (name : String) (rows : List Row) :
    ∀ (ps : List (Nat × Fragment)),
    ps.filter (fun p => p.2.key_tuple ∉ foundKeys) = [] →
    ps.foldl (addMissingStep foundKeys dg name rows) (none, none) = (none, none)
  | [], _ => rfl
  | (i, f) :: rest, hflt => by
    by_cases hk : f.key_tuple ∈ foundKeys
    · have hstep : addMissingStep foundKeys dg name rows (none, none) (i, f)
          = (none, none) := by
        unfold addMissingStep
        rw [if_pos hk]
      rw [List.foldl_cons, hstep]
      refine addMissing_foldl_none_of_all_found foundKeys dg name rows rest ?_
      rwa [List.filter_cons_of_neg (by simpa using hk)] at hflt
    · rw [List.filter_cons_of_pos (by simpa using hk)] at hflt
      exact absurd hflt (by simp)

lemma addMissing_foldl_none_of_kept (foundKeys : List (String × Int × Int × Strand))
    (dg : Gap) (name : String) (rows : List Row) :
    ∀ (ps : List (Nat × Fragment)) (i : Nat) (f : Fragment)
      (rest : List (Nat × Fragment)),
    ps.filter (fun p => p.2.key_tuple ∉ foundKeys) = (i, f) :: rest →
    ∃ li', ps.foldl (addMissingStep foundKeys dg name rows) (none, none)
      = (some ⟨name, .fragment f :: specKeptRows rows dg i rest, none, none⟩, some li')
  | [], i, f, rest, hflt => absurd hflt (by simp)
  | (j, h) :: tail, i, f, rest, hflt => by
    by_cases hk : h.key_tuple ∈ foundKeys
    · rw [List.filter_cons_of_neg (by simpa using hk)] at hflt
      have hstep : addMissingStep foundKeys dg name rows (none, none) (j, h)
          = (none, none) := by
        unfold addMissingStep
        rw [if_pos hk]
      rw [List.foldl_cons, hstep]
      exact addMissing_foldl_none_of_kept foundKeys dg name rows tail i f rest hflt
    · rw [List.filter_cons_of_pos (by simpa using hk)] at hflt
      have hj : j = i := congrArg Prod.fst (List.head_eq_of_cons_eq hflt)
      have hh : h = f := congrArg Prod.snd (List.head_eq_of_cons_eq hflt)
      have htl : tail.filter (fun p => p.2.key_tuple ∉ foundKeys) = rest :=
        List.tail_eq_of_cons_eq hflt
      subst hj hh
      have hstep : addMissingStep foundKeys dg name rows (none, none) (j, h)
          = (some ⟨name, [.fragment h], none, none⟩, some j) := by
        unfold addMissingStep
        rw [if_neg hk]
        simp [Scaffold.addRow]
      rw [List.foldl_cons, hstep]
      obtain ⟨li', hrec⟩ := addMissing_foldl_some foundKeys dg name rows tail
        ⟨name, [.fragment h], none, none⟩ j
      refine ⟨li', ?_⟩
      rw [hrec, htl]
      simp

lemma idxFragmentsFrom_fragCons (k : Nat) (f : Fragment) (rs : List Row) :
    idxFragmentsFrom k (.fragment f :: rs) = (k, f) :: idxFragmentsFrom (k + 1) rs := rfl

lemma idxFragmentsFrom_gapCons (k : Nat) (g : Gap) (rs : List Row) :
    idxFragmentsFrom k (.gap g :: rs) = idxFragmentsFrom (k + 1) rs := rfl

lemma idxFragments_eq_from (s : Scaffold) : s.idxFragments = idxFragmentsFrom 0 s.rows := rfl

lemma spec_reconstruct (g : List Row) (dg : Gap) :
    ∀ (rs : List Row), WFRows rs → ∀ (k : Nat),
    (∀ j, j < rs.length → g.getD (k + j) default = rs.getD j default) →
    ∃ f rest, idxFragmentsFrom k rs = (k, f) :: rest
      ∧ .fragment f :: specKeptRows g dg k rest = rs := by
  intro rs hwf
  induction hwf with
  | single f =>
    intro k _
    exact ⟨f, [], rfl, by simp [specKeptRows]⟩
  | fragCons f rs hrs ih =>
    intro k hagree
    have hagree' : ∀ j, j < rs.length → g.getD (k + 1 + j) default = rs.getD j default := by
      intro j hj
      have h1 := hagree (j + 1) (by simpa using Nat.succ_lt_succ hj)
      have h2 : k + (j + 1) = k + 1 + j := by omega
      rw [h2] at h1
      simpa using h1
    obtain ⟨f', rest', hidx, hrec⟩ := ih (k + 1) hagree'
    refine ⟨f, (k + 1, f') :: rest', ?_, ?_⟩
    · rw [idxFragmentsFrom_fragCons, hidx]
    · rw [specKeptRows]
      rw [specGapBetween, if_pos rfl, List.nil_append, hrec]
  | fragGapCons f g0 rs hrs ih =>
    intro k hagree
    have hagree' : ∀ j, j < rs.length → g.getD (k + 2 + j) default = rs.getD j default := by
      intro j hj
      have h1 := hagree (j + 2) (by simp; omega)
      have h2 : k + (j + 2) = k + 2 + j := by omega
      rw [h2] at h1
      simpa using h1
    obtain ⟨f', rest', hidx, hrec⟩ := ih (k + 2) hagree'
    refine ⟨f, (k + 2, f') :: rest', ?_, ?_⟩
    · rw [idxFragmentsFrom_fragCons, idxFragmentsFrom_gapCons, hidx]
    · rw [specKeptRows]
      have hne : ¬k + 1 = k + 2 := by omega
      have hg : g.getD (k + 2 - 1) default = .gap g0 := by
        have h1 := hagree 1 (by simp)
        have h2 : k + 2 - 1 = k + 1 := by omega
        rw [h2]
        simpa using h1
      rw [specGapBetween, if_neg hne, hg]
      rw [hrec]
      rfl

/-- C5 (amended): the per-scaffold emission of
`add_missing_scaffolds_from_input` equals its spec-side description: the
missing fragments in input order, a new scaffold named after the input, and
between consecutively kept fragments nothing when their row indices are
consecutive, otherwise the original row before the current fragment when it is
a gap and `default_gap` when it is not; a well-formed input scaffold none of
whose fragments were found is emitted with exactly its original rows. -/
theorem add_missing_scaffold_gap_rule (foundKeys : List (String × Int × Int × Strand))
    (default_gap : Gap) (scffld : Scaffold) :
    addMissingScaffold foundKeys default_gap scffld
      = addMissingScaffoldSpec foundKeys default_gap scffld
    ∧ (WFRows scffld.rows →
        (∀ p ∈ scffld.idxFragments, p.2.key_tuple ∉ foundKeys) →
        addMissingScaffold foundKeys default_gap scffld
          = some ⟨scffld.name, scffld.rows, none, none⟩) := by
  constructor
  · unfold addMissingScaffold addMissingScaffoldSpec
    cases hflt : scffld.idxFragments.filter (fun p => p.2.key_tuple ∉ foundKeys) with
    | nil =>
      rw [addMissing_foldl_none_of_all_found foundKeys default_gap scffld.name
        scffld.rows scffld.idxFragments hflt]
    | cons head rest =>
      obtain ⟨i, f⟩ := head
      obtain ⟨li', hfold⟩ := addMissing_foldl_none_of_kept foundKeys default_gap
        scffld.name scffld.rows scffld.idxFragments i f rest hflt
      rw [hfold]
  · intro hwf hmiss
    have hflt : scffld.idxFragments.filter (fun p => p.2.key_tuple ∉ foundKeys)
        = scffld.idxFragments :=
      List.filter_eq_self.mpr fun p hp => by simpa using hmiss p hp
    obtain ⟨f, rest, hidx, hrec⟩ := spec_reconstruct scffld.rows default_gap
      scffld.rows hwf 0 (fun j _ => by rw [Nat.zero_add])
    unfold addMissingScaffold
    rw [idxFragments_eq_from] at hflt ⊢
    obtain ⟨li', hfold⟩ := addMissing_foldl_none_of_kept foundKeys default_gap
      scffld.name scffld.rows (idxFragmentsFrom 0 scffld.rows) 0 f rest
      (by rw [hflt, hidx])
    rw [hfold, hrec]

/-- C5 counterexample: both fragments of `gapKeepScaffold` are missing; their
kept row indices are 0 and 2 (they differ by 2, not 1), yet the emitted
scaffold carries the original gap row, not `default_gap` — refuting the
claim's rule that non-adjacent indices receive `default_gap` (and, a fortiori,
its rule that adjacent ones receive the original gap). -/
theorem add_missing_claim_counterexample :
    addMissingScaffold [] defaultGapX gapKeepScaffold
      = some ⟨"s", [.fragment missF0, .gap origGap, .fragment missF1], none, none⟩
    ∧ gapKeepScaffold.idxFragments = [(0, missF0), (2, missF1)]
    ∧ origGap ≠ defaultGapX
    ∧ addMissingScaffold [] defaultGapX gapKeepScaffold
        ≠ some ⟨"s", [.fragment missF0, .gap defaultGapX, .fragment missF1],
            none, none⟩ := by
  decide

theorem add_missing_scaffold_gap_rule_witness :
    addMissingScaffold [] defaultGapX gapKeepScaffold
      = addMissingScaffoldSpec [] defaultGapX gapKeepScaffold
    ∧ addMissingScaffold [] defaultGapX gapKeepScaffold
      = some ⟨gapKeepScaffold.name, gapKeepScaffold.rows, none, none⟩ :=
  have h := add_missing_scaffold_gap_rule [] defaultGapX gapKeepScaffold
  ⟨h.1, h.2 (WFRows.fragGapCons _ _ _ (WFRows.single _)) (by decide)⟩

/-- C9: `add_overhang_premise` stores a start premise when the fragment is the
scaffold's first row, an end premise when it is the last row (and not the
first), and stores nothing when the fragment appears only at interior
positions. -/
theorem add_overhang_premise_terminal_only (store : Store) (pbk : PremMap)
    (frag : Fragment) (sid : Nat) :
    ((getOR store sid).rows.head? = some (.fragment frag) →
      addOverhangPremise store pbk frag sid
        = appendPremise pbk frag.key_tuple ⟨frag, sid, .start⟩)
    ∧ ((getOR store sid).rows.head? ≠ some (.fragment frag) →
        (getOR store sid).rows.getLast? = some (.fragment frag) →
        addOverhangPremise store pbk frag sid
          = appendPremise pbk frag.key_tuple ⟨frag, sid, .stop⟩)
    ∧ ((.fragment frag) ∈ (getOR store sid).rows →
        (getOR store sid).rows.head? ≠ some (.fragment frag) →
        (getOR store sid).rows.getLast? ≠ some (.fragment frag) →
        addOverhangPremise store pbk frag sid = pbk) := by
  refine ⟨?_, ?_, ?_⟩
  · intro hhead
    unfold addOverhangPremise premiseFor
    rw [if_pos hhead]
  · intro hhead hlast
    unfold addOverhangPremise premiseFor
    rw [if_neg hhead, if_pos hlast]
  · intro _ hhead hlast
    unfold addOverhangPremise premiseFor
    rw [if_neg hhead, if_neg hlast]

theorem add_overhang_premise_terminal_only_witness :
    (addOverhangPremise wStore [] wf 1
        = appendPremise [] wf.key_tuple ⟨wf, 1, .start⟩)
    ∧ (addOverhangPremise wStore [] wf 2
        = appendPremise [] wf.key_tuple ⟨wf, 2, .stop⟩)
    ∧ (addOverhangPremise wStore [] wa 3 = []) := by
  have h1 := (add_overhang_premise_terminal_only wStore [] wf 1).1 (by decide)
  have h2 := (add_overhang_premise_terminal_only wStore [] wf 2).2.1
    (by decide) (by rfl)
  have h3 := (add_overhang_premise_terminal_only wStore [] wa 3).2.2
    (by decide) (by decide) (by decide)
  exact ⟨h1, h2, h3⟩

/-- C3: on a premise list of exactly two premises whose bait overlaps are both
below `err_length`, `make_fixes` applies and records exactly one premise: the
one whose bait overlap is the smaller (the second on ties). -/
theorem make_fixes_two_premise_rule (err : Int) (store : Store) (p q : Premise)
    (hp : baitOverlap store p < err) (hq : baitOverlap store q < err) :
    ∃ w, processPremList err store [p, q] = ([w], applyPremise store w)
      ∧ (w = p ∨ w = q)
      ∧ baitOverlap store w ≤ baitOverlap store p
      ∧ baitOverlap store w ≤ baitOverlap store q
      ∧ (baitOverlap store p < baitOverlap store q → w = p)
      ∧ (baitOverlap store q ≤ baitOverlap store p → w = q) := by
  have hred : processPremList err store [p, q]
      = if baitOverlap store p < err ∧ baitOverlap store q < err then
          if baitOverlap store p < baitOverlap store q then ([p], applyPremise store p)
          else ([q], applyPremise store q)
        else processLong err store [p, q] := rfl
  rw [hred, if_pos ⟨hp, hq⟩]
  by_cases hlt : baitOverlap store p < baitOverlap store q
  · refine ⟨p, by rw [if_pos hlt], Or.inl rfl, le_refl _, le_of_lt hlt, fun _ => rfl,
      fun hle => absurd hlt (not_lt.mpr hle)⟩
  · refine ⟨q, by rw [if_neg hlt], Or.inr rfl, not_lt.mp hlt, le_refl _,
      fun hlt' => absurd hlt' hlt, fun _ => rfl⟩

theorem make_fixes_two_premise_rule_witness :
    ∃ w, processPremList 10 wStore [⟨wf, 1, .start⟩, ⟨wf, 2, .stop⟩]
        = ([w], applyPremise wStore w)
      ∧ (w = ⟨wf, 1, .start⟩ ∨ w = ⟨wf, 2, .stop⟩)
      ∧ baitOverlap wStore w ≤ baitOverlap wStore ⟨wf, 1, .start⟩
      ∧ baitOverlap wStore w ≤ baitOverlap wStore ⟨wf, 2, .stop⟩
      ∧ (baitOverlap wStore ⟨wf, 1, .start⟩ < baitOverlap wStore ⟨wf, 2, .stop⟩ →
          w = ⟨wf, 1, .start⟩)
      ∧ (baitOverlap wStore ⟨wf, 2, .stop⟩ ≤ baitOverlap wStore ⟨wf, 1, .start⟩ →
          w = ⟨wf, 2, .stop⟩) :=
  make_fixes_two_premise_rule 10 wStore ⟨wf, 1, .start⟩ ⟨wf, 2, .stop⟩
    (by decide) (by decide)

/-- C4: on a premise list not handled by the two-premise small-bait-overlap
rule, `make_fixes` sorts by `overhang_error_delta_if_applied` ascending and
applies the first premise `bst` iff `bst.improves(err_length)` and the second
premise `nxt.makes_worse(err_length)`; `improves` holds iff the scaffold has
more than one row, the error delta is negative and the overhang if applied
exceeds `-3 * err_length`, and `makes_worse` is its negation. -/
theorem make_fixes_sorted_rule (err : Int) (store : Store) (pl : List Premise)
    (hlong : 2 < pl.length
      ∨ ∃ p q, pl = [p, q]
          ∧ ¬(baitOverlap store p < err ∧ baitOverlap store q < err)) :
    ∃ bst nxt rest,
      List.insertionSort
          (fun a b => overhangErrorDelta store a ≤ overhangErrorDelta store b) pl
        = bst :: nxt :: rest
      ∧ List.Sorted (fun a b => overhangErrorDelta store a ≤ overhangErrorDelta store b)
          (bst :: nxt :: rest)
      ∧ (improvesB store err bst = true ∧ makesWorseB store err nxt = true →
          processPremList err store pl = ([bst], applyPremise store bst))
      ∧ (¬(improvesB store err bst = true ∧ makesWorseB store err nxt = true) →
          processPremList err store pl = ([], store))
      ∧ (∀ p : Premise, (getOR store p.sid).rows ≠ [] →
          (improvesB store err p = true ↔
            1 < (getOR store p.sid).rows.length
            ∧ overhangErrorDelta store p < 0
            ∧ overhangIfApplied store p > -3 * err))
      ∧ (∀ p : Premise, makesWorseB store err p = !improvesB store err p) := by
  have hlen2 : 2 ≤ pl.length := by
    rcases hlong with h | ⟨p, q, hpq, -⟩
    · omega
    · subst hpq; rfl
  have hslen : (List.insertionSort
      (fun a b => overhangErrorDelta store a ≤ overhangErrorDelta store b) pl).length
      = pl.length := List.length_insertionSort _ _
  have hred : processPremList err store pl = processLong err store pl := by
    rcases hlong with h | ⟨p, q, hpq, hcond⟩
    · match pl, h with
      | a :: b :: c :: t, _ => rfl
    · subst hpq
      have hr : processPremList err store [p, q]
          = if baitOverlap store p < err ∧ baitOverlap store q < err then
              if baitOverlap store p < baitOverlap store q then
                ([p], applyPremise store p)
              else ([q], applyPremise store q)
            else processLong err store [p, q] := rfl
      rw [hr, if_neg hcond]
  cases hs : List.insertionSort
      (fun a b => overhangErrorDelta store a ≤ overhangErrorDelta store b) pl with
  | nil => rw [hs] at hslen; simp at hslen; omega
  | cons bst t =>
    cases t with
    | nil => rw [hs] at hslen; simp at hslen; omega
    | cons nxt rest =>
      have hsorted : List.Sorted
          (fun a b => overhangErrorDelta store a ≤ overhangErrorDelta store b)
          (bst :: nxt :: rest) := by
        haveI : IsTotal Premise
            (fun a b => overhangErrorDelta store a ≤ overhangErrorDelta store b) :=
          ⟨fun a b => le_total _ _⟩
        haveI : IsTrans Premise
            (fun a b => overhangErrorDelta store a ≤ overhangErrorDelta store b) :=
          ⟨fun _ _ _ hab hbc => le_trans hab hbc⟩
        rw [← hs]
        exact List.sorted_insertionSort _ _
      have hproc : processLong err store pl
          = if improvesB store err bst ∧ makesWorseB store err nxt then
              ([bst], applyPremise store bst)
            else ([], store) := by
        unfold processLong
        rw [if_pos (by omega), hs]
      refine ⟨bst, nxt, rest, rfl, hsorted, ?_, ?_, ?_, fun p => rfl⟩
      · intro himp
        rw [hred, hproc, if_pos himp]
      · intro himp
        rw [hred, hproc, if_neg himp]
      · intro p hrows
        have hpos : 0 < (getOR store p.sid).rows.length := List.length_pos.mpr hrows
        unfold improvesB
        by_cases h1 : (getOR store p.sid).rows.length = 1
        · rw [if_pos h1]
          constructor
          · intro hfalse; exact absurd hfalse (by simp)
          · intro hc; rw [h1] at hc; omega
        · rw [if_neg h1]
          by_cases h2 : overhangErrorDelta store p < 0
              ∧ overhangIfApplied store p > -3 * err
          · rw [if_pos h2]
            constructor
            · intro _; exact ⟨by omega, h2.1, h2.2⟩
            · intro _; rfl
          · rw [if_neg h2]
            constructor
            · intro hfalse; exact absurd hfalse (by simp)
            · intro hc; exact absurd ⟨hc.2.1, hc.2.2⟩ h2

theorem make_fixes_sorted_rule_witness :
    ∃ bst nxt rest,
      List.insertionSort
          (fun a b => overhangErrorDelta wStore a ≤ overhangErrorDelta wStore b)
          [⟨wf, 1, .start⟩, ⟨wf, 2, .stop⟩]
        = bst :: nxt :: rest
      ∧ List.Sorted
          (fun a b => overhangErrorDelta wStore a ≤ overhangErrorDelta wStore b)
          (bst :: nxt :: rest)
      ∧ (improvesB wStore 3 bst = true ∧ makesWorseB wStore 3 nxt = true →
          processPremList 3 wStore [⟨wf, 1, .start⟩, ⟨wf, 2, .stop⟩]
            = ([bst], applyPremise wStore bst))
      ∧ (¬(improvesB wStore 3 bst = true ∧ makesWorseB wStore 3 nxt = true) →
          processPremList 3 wStore [⟨wf, 1, .start⟩, ⟨wf, 2, .stop⟩] = ([], wStore))
      ∧ (∀ p : Premise, (getOR wStore p.sid).rows ≠ [] →
          (improvesB wStore 3 p = true ↔
            1 < (getOR wStore p.sid).rows.length
            ∧ overhangErrorDelta wStore p < 0
            ∧ overhangIfApplied wStore p > -3 * 3))
      ∧ (∀ p : Premise, makesWorseB wStore 3 p = !improvesB wStore 3 p) :=
  make_fixes_sorted_rule 3 wStore [⟨wf, 1, .start⟩, ⟨wf, 2, .stop⟩]
    (Or.inr ⟨⟨wf, 1, .start⟩, ⟨wf, 2, .stop⟩, rfl, by decide⟩)

lemma processLong_cases (err : Int) (store : Store) (pl : List Premise) :
    processLong err store pl = ([], store)
      ∨ ∃ p ∈ pl, processLong err store pl = ([p], applyPremise store p) := by
  by_cases hlen : pl.length > 1
  · cases hs : List.insertionSort
        (fun a b => overhangErrorDelta store a ≤ overhangErrorDelta store b) pl with
    | nil =>
      refine Or.inl ?_
      unfold processLong
      rw [if_pos hlen, hs]
    | cons bst t =>
      cases t with
      | nil =>
        refine Or.inl ?_
        unfold processLong
        rw [if_pos hlen, hs]
      | cons nxt rest =>
        have hproc : processLong err store pl
            = if improvesB store err bst ∧ makesWorseB store err nxt then
                ([bst], applyPremise store bst)
              else ([], store) := by
          unfold processLong
          rw [if_pos hlen, hs]
        have hbst : bst ∈ pl := by
          have hperm := List.perm_insertionSort
            (fun a b => overhangErrorDelta store a ≤ overhangErrorDelta store b) pl
          rw [hs] at hperm
          exact hperm.mem_iff.mp (List.mem_cons_self _ _)
        rw [hproc]
        by_cases himp : improvesB store err bst ∧ makesWorseB store err nxt
        · rw [if_pos himp]
          exact Or.inr ⟨bst, hbst, rfl⟩
        · rw [if_neg himp]
          exact Or.inl rfl
  · refine Or.inl ?_
    unfold processLong
    rw [if_neg hlen]

lemma processPremList_cases (err : Int) (store : Store) (pl : List Premise) :
    processPremList err store pl = ([], store)
      ∨ ∃ p ∈ pl, processPremList err store pl = ([p], applyPremise store p) := by
  match pl with
  | [] => exact processLong_cases err store []
  | [a] => exact processLong_cases err store [a]
  | [a, b] =>
    have hr : processPremList err store [a, b]
        = if baitOverlap store a < err ∧ baitOverlap store b < err then
            if baitOverlap store a < baitOverlap store b then
              ([a], applyPremise store a)
            else ([b], applyPremise store b)
          else processLong err store [a, b] := rfl
    rw [hr]
    by_cases hcond : baitOverlap store a < err ∧ baitOverlap store b < err
    · rw [if_pos hcond]
      by_cases hlt : baitOverlap store a < baitOverlap store b
      · rw [if_pos hlt]
        exact Or.inr ⟨a, List.mem_cons_self _ _, rfl⟩
      · rw [if_neg hlt]
        exact Or.inr ⟨b, by simp, rfl⟩
    · rw [if_neg hcond]
      exact processLong_cases err store [a, b]
  | a :: b :: c :: t => exact processLong_cases err store (a :: b :: c :: t)

lemma makeFixes_nil_store (err : Int) :
    ∀ (pbk : List ((String × Int × Int × Strand) × List Premise)) (store : Store),
    (makeFixes err store pbk).1 = [] → (makeFixes err store pbk).2 = store
  | [], _, _ => rfl
  | (k, pl) :: rest, store, hnil => by
    rw [makeFixes] at hnil ⊢
    rcases processPremList_cases err store pl with hc | ⟨p, _, hc⟩
    · rw [hc] at hnil ⊢
      simp only [List.nil_append] at hnil ⊢
      exact makeFixes_nil_store err rest store hnil
    · rw [hc] at hnil
      simp at hnil

lemma makeFixes_keys_sublist (err : Int) :
    ∀ (pbk : List ((String × Int × Int × Strand) × List Premise)) (store : Store),
    (∀ e ∈ pbk, ∀ p ∈ e.2, p.fragment.key_tuple = e.1) →
    ((makeFixes err store pbk).1.map (fun p => p.fragment.key_tuple)).Sublist
      (pbk.map Prod.fst)
  | [], _, _ => by simp [makeFixes]
  | (k, pl) :: rest, store, hk => by
    rw [makeFixes]
    have hkrest : ∀ e ∈ rest, ∀ p ∈ e.2, p.fragment.key_tuple = e.1 :=
      fun e he => hk e (List.mem_cons_of_mem _ he)
    rcases processPremList_cases err store pl with hc | ⟨p, hp, hc⟩
    · rw [hc]
      simp only [List.nil_append, List.map_cons]
      exact (makeFixes_keys_sublist err rest store hkrest).cons _
    · rw [hc]
      simp only [List.cons_append, List.nil_append, List.map_cons]
      have hkey : p.fragment.key_tuple = k := hk (k, pl) (List.mem_cons_self _ _) p hp
      rw [hkey]
      exact (makeFixes_keys_sublist err rest (applyPremise store p) hkrest).cons₂ _

lemma makeFixes_mem (err : Int) :
    ∀ (pbk : List ((String × Int × Int × Strand) × List Premise)) (store : Store),
    ∀ p ∈ (makeFixes err store pbk).1, ∃ e ∈ pbk, p ∈ e.2
  | [], _, p, hp => by simp [makeFixes] at hp
  | (k, pl) :: rest, store, p, hp => by
    rw [makeFixes] at hp
    rcases processPremList_cases err store pl with hc | ⟨q, hq, hc⟩
    · rw [hc] at hp
      simp only [List.nil_append] at hp
      obtain ⟨e, he, hpe⟩ := makeFixes_mem err rest store p hp
      exact ⟨e, List.mem_cons_of_mem _ he, hpe⟩
    · rw [hc] at hp
      simp only [List.cons_append, List.nil_append] at hp
      rcases List.mem_cons.mp hp with rfl | hp'
      · exact ⟨(k, pl), List.mem_cons_self _ _, hq⟩
      · obtain ⟨e, he, hpe⟩ := makeFixes_mem err rest (applyPremise store q) p hp'
        exact ⟨e, List.mem_cons_of_mem _ he, hpe⟩

lemma foldl_rec {αated : Type} {β : Type} (P : β → Prop) (f : β → αated → β) :
    ∀ (l : List αated), (∀ b, P b → ∀ a ∈ l, P (f b a)) → ∀ b, P b → P (l.foldl f b)
  | [], _, _, hb => hb
  | a :: l, hstep, b, hb =>
    foldl_rec P f l
      (fun b' hb' a' ha' => hstep b' hb' a' (List.mem_cons_of_mem _ ha'))
      (f b a) (hstep b hb a (List.mem_cons_self _ _))

lemma premiseFor_some {store : Store} {frag : Fragment} {sid : Nat} {p : Premise}
    (h : premiseFor store frag sid = some p) : p.fragment = frag ∧ p.sid = sid := by
  unfold premiseFor at h
  by_cases h1 : (getOR store sid).rows.head? = some (.fragment frag)
  · rw [if_pos h1] at h
    injection h with h2
    rw [← h2]
    exact ⟨rfl, rfl⟩
  · rw [if_neg h1] at h
    by_cases h2 : (getOR store sid).rows.getLast? = some (.fragment frag)
    · rw [if_pos h2] at h
      injection h with h3
      rw [← h3]
      exact ⟨rfl, rfl⟩
    · rw [if_neg h2] at h
      exact absurd h (by simp)

lemma appendPremise_prop (Q : Premise → (String × Int × Int × Strand) → Prop) :
    ∀ (pbk : PremMap) (k : String × Int × Int × Strand) (p : Premise),
    (∀ e ∈ pbk, ∀ q ∈ e.2, Q q e.1) → Q p k →
    ∀ e ∈ appendPremise pbk k p, ∀ q ∈ e.2, Q q e.1
  | [], k, p, _, hp, e, he, q, hq => by
    simp only [appendPremise, List.mem_singleton] at he
    subst he
    simp only [List.mem_singleton] at hq
    subst hq
    exact hp
  | (k', ps) :: rest, k, p, hall, hp, e, he, q, hq => by
    rw [appendPremise] at he
    by_cases hkk : k' = k
    · rw [if_pos hkk] at he
      rcases List.mem_cons.mp he with rfl | he'
      · simp only at hq
        rcases List.mem_append.mp hq with hq' | hq'
        · exact hall (k', ps) (List.mem_cons_self _ _) q hq'
        · simp only [List.mem_singleton] at hq'
          subst hq'
          exact hkk ▸ hp
      · exact hall e (List.mem_cons_of_mem _ he') q hq
    · rw [if_neg hkk] at he
      rcases List.mem_cons.mp he with rfl | he'
      · exact hall (k', ps) (List.mem_cons_self _ _) q hq
      · exact appendPremise_prop Q rest k p
          (fun e' he'' => hall e' (List.mem_cons_of_mem _ he'')) hp e he' q hq

lemma appendPremise_keys :
    ∀ (pbk : PremMap) (k : String × Int × Int × Strand) (p : Premise),
    (k ∈ pbk.map Prod.fst ∧ (appendPremise pbk k p).map Prod.fst = pbk.map Prod.fst)
    ∨ (k ∉ pbk.map Prod.fst
        ∧ (appendPremise pbk k p).map Prod.fst = pbk.map Prod.fst ++ [k])
  | [], k, p => Or.inr ⟨by simp, by simp [appendPremise]⟩
  | (k', ps) :: rest, k, p => by
    rw [appendPremise]
    by_cases hkk : k' = k
    · rw [if_pos hkk]
      exact Or.inl ⟨by simp [hkk], by simp⟩
    · rw [if_neg hkk]
      rcases appendPremise_keys rest k p with ⟨hin, heq⟩ | ⟨hnin, heq⟩
      · exact Or.inl ⟨List.mem_cons_of_mem _ hin, by simp [heq]⟩
      · refine Or.inr ⟨?_, by simp [heq]⟩
        intro hmem
        rcases List.mem_cons.mp hmem with he | hmem'
        · exact hkk he.symm
        · exact hnin hmem'

lemma appendPremise_keys_nodup {pbk : PremMap} {k : String × Int × Int × Strand}
    {p : Premise} (hnd : (pbk.map Prod.fst).Nodup) :
    ((appendPremise pbk k p).map Prod.fst).Nodup := by
  rcases appendPremise_keys pbk k p with ⟨_, heq⟩ | ⟨hnin, heq⟩
  · rw [heq]; exact hnd
  · rw [heq]
    exact hnd.append (List.nodup_singleton _) (by simpa using hnin)

lemma addOverhangPremise_none {store : Store} {frag : Fragment} {sid : Nat}
    (pbk : PremMap) (h : premiseFor store frag sid = none) :
    addOverhangPremise store pbk frag sid = pbk := by
  unfold addOverhangPremise
  rw [h]

lemma addOverhangPremise_some {store : Store} {frag : Fragment} {sid : Nat}
    {p : Premise} (pbk : PremMap) (h : premiseFor store frag sid = some p) :
    addOverhangPremise store pbk frag sid = appendPremise pbk frag.key_tuple p := by
  unfold addOverhangPremise
  rw [h]

lemma buildPremises_wf (store : Store) (multi : Multi) :
    (∀ e ∈ buildPremises store multi, ∀ p ∈ e.2,
      p.fragment.key_tuple = e.1
        ∧ ∃ me ∈ multi, me.2.fragment = p.fragment ∧ p.sid ∈ me.2.scaffolds)
    ∧ ((buildPremises store multi).map Prod.fst).Nodup := by
  unfold buildPremises
  refine foldl_rec
    (fun pbk : PremMap =>
      (∀ e ∈ pbk, ∀ p : Premise, p ∈ e.2 →
        p.fragment.key_tuple = e.1
          ∧ ∃ me ∈ multi, me.2.fragment = p.fragment ∧ p.sid ∈ me.2.scaffolds)
      ∧ (pbk.map Prod.fst).Nodup)
    _ multi ?_ [] ⟨fun e he => absurd he (List.not_mem_nil _), List.nodup_nil⟩
  intro pbk hpbk me hme
  refine foldl_rec
    (fun pbk2 : PremMap =>
      (∀ e ∈ pbk2, ∀ p : Premise, p ∈ e.2 →
        p.fragment.key_tuple = e.1
          ∧ ∃ me ∈ multi, me.2.fragment = p.fragment ∧ p.sid ∈ me.2.scaffolds)
      ∧ (pbk2.map Prod.fst).Nodup)
    _ me.2.scaffolds ?_ pbk hpbk
  intro pbk2 hpbk2 sid hsid
  cases hpf : premiseFor store me.2.fragment sid with
  | none =>
    rw [addOverhangPremise_none pbk2 hpf]
    exact hpbk2
  | some p =>
    obtain ⟨hpfrag, hpsid⟩ := premiseFor_some hpf
    rw [addOverhangPremise_some pbk2 hpf]
    refine ⟨appendPremise_prop
      (fun q key => q.fragment.key_tuple = key
        ∧ ∃ me ∈ multi, me.2.fragment = q.fragment ∧ q.sid ∈ me.2.scaffolds)
      pbk2 me.2.fragment.key_tuple p
      (fun e he q hq => hpbk2.1 e he q hq) ?_, appendPremise_keys_nodup hpbk2.2⟩
    exact ⟨by rw [hpfrag], ⟨me, hme, hpfrag.symm, hpsid ▸ hsid⟩⟩

lemma removeFixed_decrease (p : Premise) :
    ∀ (multi : Multi), (multi.map Prod.fst).Nodup →
    (∃ e ∈ multi, e.1 = p.fragment.key_tuple ∧ p.sid ∈ e.2.scaffolds) →
    sumScaffoldCount (removeFixedScaffold p multi) + 1 ≤ sumScaffoldCount multi
  | [], _, hmem => by simp at hmem
  | (k, fnd) :: rest, hnd, hmem => by
    rw [removeFixedScaffold]
    by_cases hk : k = p.fragment.key_tuple
    · rw [if_pos hk]
      have hsid : p.sid ∈ fnd.scaffolds := by
        obtain ⟨e, he, hek, hes⟩ := hmem
        rcases List.mem_cons.mp he with rfl | he'
        · exact hes
        · have hknotin : k ∉ rest.map Prod.fst :=
            (List.nodup_cons.mp (show (k :: rest.map Prod.fst).Nodup by simpa using hnd)).1
          have hin : e.1 ∈ rest.map Prod.fst := List.mem_map.mpr ⟨e, he', rfl⟩
          rw [hek, ← hk] at hin
          exact absurd hin hknotin
      have herase : (fnd.scaffolds.erase p.sid).length = fnd.scaffolds.length - 1 :=
        List.length_erase_of_mem hsid
      have hlenpos : 1 ≤ fnd.scaffolds.length := List.length_pos.mpr
        (List.ne_nil_of_mem hsid)
      by_cases hle : (fnd.scaffolds.erase p.sid).length ≤ 1
      · rw [if_pos hle]
        simp only [sumScaffoldCount, List.map_cons, List.sum_cons]
        omega
      · rw [if_neg hle]
        simp only [sumScaffoldCount, List.map_cons, List.sum_cons]
        omega
    · rw [if_neg hk]
      have hmem' : ∃ e ∈ rest, e.1 = p.fragment.key_tuple ∧ p.sid ∈ e.2.scaffolds := by
        obtain ⟨e, he, hek, hes⟩ := hmem
        rcases List.mem_cons.mp he with rfl | he'
        · exact absurd hek hk
        · exact ⟨e, he', hek, hes⟩
      have := removeFixed_decrease p rest (List.nodup_cons.mp (by simpa using hnd)).2 hmem'
      simp only [sumScaffoldCount, List.map_cons, List.sum_cons] at this ⊢
      omega

lemma removeFixed_preserves (p : Premise) :
    ∀ (multi : Multi) (e : (String × Int × Int × Strand) × FoundFragment),
    e.1 ≠ p.fragment.key_tuple →
    (e ∈ removeFixedScaffold p multi ↔ e ∈ multi)
  | [], e, _ => by rfl
  | (k, fnd) :: rest, e, hne => by
    rw [removeFixedScaffold]
    by_cases hk : k = p.fragment.key_tuple
    · rw [if_pos hk]
      have hehd : e ≠ (k, fnd) := fun he => hne (by rw [he, hk])
      by_cases hle : (fnd.scaffolds.erase p.sid).length ≤ 1
      · rw [if_pos hle]
        constructor
        · exact fun h => List.mem_cons_of_mem _ h
        · intro h
          rcases List.mem_cons.mp h with he | h'
          · exact absurd he hehd
          · exact h'
      · rw [if_neg hle]
        have hehd2 : e ≠ (k, ⟨fnd.fragment, fnd.scaffolds.erase p.sid⟩) :=
          fun he => hne (by rw [he, hk])
        constructor
        · intro h
          rcases List.mem_cons.mp h with he | h'
          · exact absurd he hehd2
          · exact List.mem_cons_of_mem _ h'
        · intro h
          rcases List.mem_cons.mp h with he | h'
          · exact absurd he hehd
          · exact List.mem_cons_of_mem _ h'
    · rw [if_neg hk]
      constructor
      · intro h
        rcases List.mem_cons.mp h with he | h'
        · exact he ▸ List.mem_cons_self _ _
        · exact List.mem_cons_of_mem _ ((removeFixed_preserves p rest e hne).mp h')
      · intro h
        rcases List.mem_cons.mp h with he | h'
        · exact he ▸ List.mem_cons_self _ _
        · exact List.mem_cons_of_mem _ ((removeFixed_preserves p rest e hne).mpr h')

lemma removeFixed_keys_sublist (p : Premise) :
    ∀ (multi : Multi),
    ((removeFixedScaffold p multi).map Prod.fst).Sublist (multi.map Prod.fst)
  | [] => by simp [removeFixedScaffold]
  | (k, fnd) :: rest => by
    rw [removeFixedScaffold]
    by_cases hk : k = p.fragment.key_tuple
    · rw [if_pos hk]
      by_cases hle : (fnd.scaffolds.erase p.sid).length ≤ 1
      · rw [if_pos hle]
        exact (List.Sublist.refl _).cons _
      · rw [if_neg hle]
        simp only [List.map_cons]
        exact (List.Sublist.refl _).cons₂ _
    · rw [if_neg hk]
      simp only [List.map_cons]
      exact (removeFixed_keys_sublist p rest).cons₂ _

lemma removeFixed_counts (p : Premise) :
    ∀ (multi : Multi), (∀ e ∈ multi, 2 ≤ e.2.scaffolds.length) →
    ∀ e ∈ removeFixedScaffold p multi, 2 ≤ e.2.scaffolds.length
  | [], _, e, he => by simp [removeFixedScaffold] at he
  | (k, fnd) :: rest, hall, e, he => by
    rw [removeFixedScaffold] at he
    have hrest : ∀ e ∈ rest, 2 ≤ e.2.scaffolds.length :=
      fun e' he' => hall e' (List.mem_cons_of_mem _ he')
    by_cases hk : k = p.fragment.key_tuple
    · rw [if_pos hk] at he
      by_cases hle : (fnd.scaffolds.erase p.sid).length ≤ 1
      · rw [if_pos hle] at he
        exact hrest e he
      · rw [if_neg hle] at he
        rcases List.mem_cons.mp he with rfl | he'
        · simpa using (by omega : 2 ≤ (fnd.scaffolds.erase p.sid).length)
        · exact hrest e he'
    · rw [if_neg hk] at he
      rcases List.mem_cons.mp he with rfl | he'
      · exact hall (k, fnd) (List.mem_cons_self _ _)
      · exact removeFixed_counts p rest hrest e he'

lemma removeFixed_kc (p : Premise) :
    ∀ (multi : Multi), (∀ e ∈ multi, e.2.fragment.key_tuple = e.1) →
    ∀ e ∈ removeFixedScaffold p multi, e.2.fragment.key_tuple = e.1
  | [], _, e, he => by simp [removeFixedScaffold] at he
  | (k, fnd) :: rest, hall, e, he => by
    rw [removeFixedScaffold] at he
    have hrest : ∀ e ∈ rest, e.2.fragment.key_tuple = e.1 :=
      fun e' he' => hall e' (List.mem_cons_of_mem _ he')
    by_cases hk : k = p.fragment.key_tuple
    · rw [if_pos hk] at he
      by_cases hle : (fnd.scaffolds.erase p.sid).length ≤ 1
      · rw [if_pos hle] at he
        exact hrest e he
      · rw [if_neg hle] at he
        rcases List.mem_cons.mp he with rfl | he'
        · exact hall (k, fnd) (List.mem_cons_self _ _)
        · exact hrest e he'
    · rw [if_neg hk] at he
      rcases List.mem_cons.mp he with rfl | he'
      · exact hall (k, fnd) (List.mem_cons_self _ _)
      · exact removeFixed_kc p rest hrest e he'

lemma applyFixes_decrease :
    ∀ (fixes : List Premise) (multi : Multi),
    (multi.map Prod.fst).Nodup →
    ((fixes.map (fun p => p.fragment.key_tuple)).Nodup) →
    (∀ p ∈ fixes, ∃ e ∈ multi, e.1 = p.fragment.key_tuple ∧ p.sid ∈ e.2.scaffolds) →
    sumScaffoldCount (fixes.foldl (fun m p => removeFixedScaffold p m) multi)
        + fixes.length
      ≤ sumScaffoldCount multi
  | [], multi, _, _, _ => by simp
  | p :: rest, multi, hndm, hndf, hpre => by
    rw [List.foldl_cons]
    have h1 := removeFixed_decrease p multi hndm (hpre p (List.mem_cons_self _ _))
    have hndm' : ((removeFixedScaffold p multi).map Prod.fst).Nodup :=
      hndm.sublist (removeFixed_keys_sublist p multi)
    have hknotin : p.fragment.key_tuple ∉ rest.map (fun q => q.fragment.key_tuple) :=
      (List.nodup_cons.mp (by simpa using hndf)).1
    have hpre' : ∀ q ∈ rest, ∃ e ∈ removeFixedScaffold p multi,
        e.1 = q.fragment.key_tuple ∧ q.sid ∈ e.2.scaffolds := by
      intro q hq
      obtain ⟨e, he, hek, hes⟩ := hpre q (List.mem_cons_of_mem _ hq)
      have hne : e.1 ≠ p.fragment.key_tuple := by
        intro hcontra
        apply hknotin
        rw [← hcontra, hek]
        exact List.mem_map.mpr ⟨q, hq, rfl⟩
      exact ⟨e, (removeFixed_preserves p multi e hne).mpr he, hek, hes⟩
    have hih := applyFixes_decrease rest (removeFixedScaffold p multi) hndm'
      (List.nodup_cons.mp (by simpa using hndf)).2 hpre'
    simp only [List.length_cons]
    omega

lemma discardRound_zero (err : Int) (st : BState) (h : (discardRound err st).2 = 0) :
    (discardRound err st).1 = st := by
  unfold discardRound at h ⊢
  simp only at h
  have hfix : (makeFixes err st.store (buildPremises st.store st.multi)).1 = [] :=
    List.length_eq_zero.mp h
  rw [hfix, makeFixes_nil_store err _ _ hfix]
  simp only [List.foldl_nil]

lemma discardRound_decrease (err : Int) (st : BState)
    (hnd : (st.multi.map Prod.fst).Nodup)
    (hkc : ∀ e ∈ st.multi, e.2.fragment.key_tuple = e.1)
    (h : (discardRound err st).2 ≠ 0) :
    sumScaffoldCount (discardRound err st).1.multi < sumScaffoldCount st.multi := by
  have hwf := buildPremises_wf st.store st.multi
  have hk1 : ∀ e ∈ buildPremises st.store st.multi, ∀ p ∈ e.2,
      p.fragment.key_tuple = e.1 := fun e he p hp => (hwf.1 e he p hp).1
  have hndf : (((makeFixes err st.store (buildPremises st.store st.multi)).1.map
      (fun p => p.fragment.key_tuple))).Nodup :=
    hwf.2.sublist (makeFixes_keys_sublist err _ st.store hk1)
  have hpre : ∀ p ∈ (makeFixes err st.store (buildPremises st.store st.multi)).1,
      ∃ e ∈ st.multi, e.1 = p.fragment.key_tuple ∧ p.sid ∈ e.2.scaffolds := by
    intro p hp
    obtain ⟨e, he, hpe⟩ := makeFixes_mem err _ st.store p hp
    obtain ⟨-, me, hme, hmf, hms⟩ := hwf.1 e he p hpe
    refine ⟨me, hme, ?_, hms⟩
    rw [← hkc me hme, hmf]
  have hlen : 1 ≤ (makeFixes err st.store (buildPremises st.store st.multi)).1.length := by
    unfold discardRound at h
    simp only at h
    omega
  have := applyFixes_decrease
    (makeFixes err st.store (buildPremises st.store st.multi)).1 st.multi hnd hndf hpre
  unfold discardRound
  simp only
  omega

lemma discardRound_inv (err : Int) (st : BState)
    (hnd : (st.multi.map Prod.fst).Nodup)
    (hkc : ∀ e ∈ st.multi, e.2.fragment.key_tuple = e.1)
    (hc2 : ∀ e ∈ st.multi, 2 ≤ e.2.scaffolds.length) :
    ((discardRound err st).1.multi.map Prod.fst).Nodup
    ∧ (∀ e ∈ (discardRound err st).1.multi, e.2.fragment.key_tuple = e.1)
    ∧ (∀ e ∈ (discardRound err st).1.multi, 2 ≤ e.2.scaffolds.length) := by
  unfold discardRound
  simp only
  refine foldl_rec
    (fun m : Multi => ((m.map Prod.fst).Nodup
      ∧ (∀ e ∈ m, e.2.fragment.key_tuple = e.1)
      ∧ (∀ e ∈ m, 2 ≤ e.2.scaffolds.length)))
    _ _ ?_ st.multi ⟨hnd, hkc, hc2⟩
  intro m hm p _
  exact ⟨hm.1.sublist (removeFixed_keys_sublist p m),
    removeFixed_kc p m hm.2.1, removeFixed_counts p m hm.2.2⟩

lemma sum_ge_two_of_ne_nil {multi : Multi} (hne : multi ≠ [])
    (hc2 : ∀ e ∈ multi, 2 ≤ e.2.scaffolds.length) : 2 ≤ sumScaffoldCount multi := by
  cases multi with
  | nil => exact absurd rfl hne
  | cons e rest =>
    have := hc2 e (List.mem_cons_self _ _)
    simp only [sumScaffoldCount, List.map_cons, List.sum_cons]
    omega

lemma discardLoop_spec (err : Int) :
    ∀ (fuel : Nat) (st : BState),
    (st.multi.map Prod.fst).Nodup →
    (∀ e ∈ st.multi, e.2.fragment.key_tuple = e.1) →
    (∀ e ∈ st.multi, 2 ≤ e.2.scaffolds.length) →
    sumScaffoldCount st.multi < fuel →
    ((discardLoop err fuel st).1.multi = []
        ∨ (discardRound err (discardLoop err fuel st).1).2 = 0)
    ∧ (discardLoop err fuel st).2 ≤ sumScaffoldCount st.multi
  | 0, st, _, _, _, hfuel => absurd hfuel (by omega)
  | fuel + 1, st, hnd, hkc, hc2, hfuel => by
    rw [discardLoop]
    by_cases hm : st.multi = []
    · rw [if_pos hm]
      exact ⟨Or.inl hm, by omega⟩
    · rw [if_neg hm]
      by_cases hr : (discardRound err st).2 = 0
      · rw [if_pos hr]
        refine ⟨Or.inr ?_, ?_⟩
        · simp only
          rw [discardRound_zero err st hr, hr]
        · simp only
          have := sum_ge_two_of_ne_nil hm hc2
          omega
      · rw [if_neg hr]
        have hdec := discardRound_decrease err st hnd hkc hr
        obtain ⟨hnd', hkc', hc2'⟩ := discardRound_inv err st hnd hkc hc2
        have hfuel' : sumScaffoldCount (discardRound err st).1.multi < fuel := by omega
        have hih := discardLoop_spec err fuel (discardRound err st).1 hnd' hkc' hc2' hfuel'
        refine ⟨hih.1, ?_⟩
        simp only
        omega

/-- C2: `discard_overhanging_fragments` terminates. Any round that applies at
least one premise strictly decreases `Σ scaffold_count` over `multi` (given the
dict invariants: distinct keys and entries keyed by their fragment's
key-tuple); run with that as fuel the loop exits with `multi` empty or with a
round that makes no fixes, after at most the initial `Σ scaffold_count`
loop-body iterations (given additionally the `multi` invariant that every
entry holds ≥ 2 scaffolds). -/
theorem discard_overhanging_fragments_terminates (err : Int) (st : BState)
    (hnd : (st.multi.map Prod.fst).Nodup)
    (hkc : ∀ e ∈ st.multi, e.2.fragment.key_tuple = e.1)
    (hc2 : ∀ e ∈ st.multi, 2 ≤ e.2.scaffolds.length) :
    ((discardOverhangingFragments err st).1.multi = []
        ∨ (discardRound err (discardOverhangingFragments err st).1).2 = 0)
    ∧ (discardOverhangingFragments err st).2 ≤ sumScaffoldCount st.multi
    ∧ (∀ s : BState, (s.multi.map Prod.fst).Nodup →
        (∀ e ∈ s.multi, e.2.fragment.key_tuple = e.1) →
        (discardRound err s).2 ≠ 0 →
        sumScaffoldCount (discardRound err s).1.multi < sumScaffoldCount s.multi) := by
  have h := discardLoop_spec err (sumScaffoldCount st.multi + 1) st hnd hkc hc2 (by omega)
  exact ⟨h.1, h.2, fun s hnd' hkc' hne => discardRound_decrease err s hnd' hkc' hne⟩

theorem discard_overhanging_fragments_terminates_witness :
    ((discardOverhangingFragments 10 wSt).1.multi = []
        ∨ (discardRound 10 (discardOverhangingFragments 10 wSt).1).2 = 0)
    ∧ (discardOverhangingFragments 10 wSt).2 ≤ sumScaffoldCount wSt.multi :=
  have h := discard_overhanging_fragments_terminates 10 wSt
    (by decide) (by decide) (by decide)
  ⟨h.1, h.2.1⟩

end AgpTpf
